import Mathlib

/-!
# Verification of the market-data fan-out platform (mdfh)

A shallow embedding, in Lean 4, of the core components of the C++
market-data server/client repository, together with proofs settling the
frozen claims about it.

Conventions of the embedding:
* machine bytes are `Nat` values `< 256`; multi-byte little-endian fields
  are decoded/encoded positionally;
* `uint32_t`/`uint64_t` arithmetic that can wrap is modelled with explicit
  `% 2^32` / `% 2^64`;
* C++ `double` fields that the claims reason about are modelled as exact
  rationals (`ℚ`); where the source computes `std::sqrt(dt)` the square
  root is passed as an explicit argument constrained by `sqrtDt * sqrtDt = dt`;
* the stateful parser (`BinaryParser`) is explicit state passing: the
  registered generic handler is modelled by an `events` list recording, in
  order, the `(message bytes, message type)` pairs the handler is invoked
  with;
* the seqlock cache (`SymbolCache`) is modelled under a sequentially
  consistent interleaving semantics: the single writer's atomic steps are
  indexed by a global time, and a reader's loads are performed at
  monotonically increasing times.
-/

namespace MDFH

/-! ## Wire protocol (`include/common/protocol.h`)

`leBytes w v` is the `w`-byte little-endian serialization of `v`
(truncating to `w` bytes exactly as storing into a packed `uintN_t` field
does); `readLE w l` decodes the first `w` bytes of `l` little-endian,
exactly as `memcpy` into a `uintN_t` on a little-endian host. -/

def leBytes : Nat → Nat → List Nat
  | 0, _ => []
  | w + 1, v => v % 256 :: leBytes w (v / 256)

def readLE : Nat → List Nat → Nat
  | 0, _ => 0
  | _ + 1, [] => 0
  | w + 1, b :: bs => b + 256 * readLE w bs

/-- `calculate_checksum` (protocol.h:66-73): XOR-fold of the bytes into a
`uint32_t` accumulator. Since each byte is `< 256` the accumulator never
exceeds 8 bits, so plain `Nat.xor` is exact. -/
def calculate_checksum (l : List Nat) : Nat :=
  l.foldl (fun c b => c ^^^ b) 0

/-- `validate_checksum` (protocol.h:75-84): recompute the checksum over all
bytes except the trailing 4 and compare with the stored little-endian
`uint32_t`. -/
def validate_checksum (msg : List Nat) : Bool :=
  if msg.length < 4 then false
  else decide (calculate_checksum (msg.take (msg.length - 4))
      = readLE 4 (msg.drop (msg.length - 4)))

/-- `get_message_size` (protocol.h:86-93): `sizeof(TradeMessage) = 32`,
`sizeof(QuoteMessage) = 44`, `sizeof(HeartbeatMessage) = 20`, otherwise 0. -/
def get_message_size (t : Nat) : Nat :=
  if t = 1 then 32 else if t = 2 then 44 else if t = 3 then 20 else 0

/-- A well-typed wire message (trade / quote / heartbeat). Payload doubles
are carried as their raw 8-byte bit patterns (`Nat < 2^64`); the parser
never interprets them. -/
inductive Msg : Type
  | trade (seq ts sym priceBits qty : Nat)
  | quote (seq ts sym bidBits bidQty askBits askQty : Nat)
  | heartbeat (seq ts sym : Nat)
  deriving DecidableEq

def Msg.typeCode : Msg → Nat
  | .trade _ _ _ _ _ => 1
  | .quote _ _ _ _ _ _ _ => 2
  | .heartbeat _ _ _ => 3

def Msg.seqNum : Msg → Nat
  | .trade s _ _ _ _ => s
  | .quote s _ _ _ _ _ _ => s
  | .heartbeat s _ _ => s

def Msg.tsVal : Msg → Nat
  | .trade _ t _ _ _ => t
  | .quote _ t _ _ _ _ _ => t
  | .heartbeat _ t _ => t

def Msg.symId : Msg → Nat
  | .trade _ _ y _ _ => y
  | .quote _ _ y _ _ _ _ => y
  | .heartbeat _ _ y => y

/-- The packed 16-byte `MessageHeader` (protocol.h:18-23). -/
def Msg.headerBytes (m : Msg) : List Nat :=
  leBytes 2 m.typeCode ++ leBytes 4 m.seqNum ++ leBytes 8 m.tsVal ++ leBytes 2 m.symId

/-- The packed type-specific payload (protocol.h:26-37). -/
def Msg.payloadBytes : Msg → List Nat
  | .trade _ _ _ p q => leBytes 8 p ++ leBytes 4 q
  | .quote _ _ _ bp bq ap aq => leBytes 8 bp ++ leBytes 4 bq ++ leBytes 8 ap ++ leBytes 4 aq
  | .heartbeat _ _ _ => []

def Msg.preBytes (m : Msg) : List Nat :=
  m.headerBytes ++ m.payloadBytes

/-- The full wire encoding: header, payload, then the XOR checksum of all
preceding bytes as a little-endian `uint32_t` — exactly how the server
serializes messages (exchange_simulator.cpp:300-330). -/
def Msg.encode (m : Msg) : List Nat :=
  m.preBytes ++ leBytes 4 (calculate_checksum m.preBytes)

def encodeAll (ms : List Msg) : List Nat :=
  (ms.map Msg.encode).flatten

/-! ### Basic facts about the byte-level codec -/

theorem leBytes_length (w v : Nat) : (leBytes w v).length = w := by
  induction w generalizing v with
  | zero => rfl
  | succ w ih => simp [leBytes, ih]

theorem leBytes_mem_lt (w v : Nat) : ∀ b ∈ leBytes w v, b < 256 := by
  induction w generalizing v with
  | zero => simp [leBytes]
  | succ w ih =>
    intro b hb
    simp only [leBytes, List.mem_cons] at hb
    rcases hb with h | h
    · exact h ▸ Nat.mod_lt _ (by norm_num)
    · exact ih _ _ h

theorem readLE_leBytes (w : Nat) (v : Nat) (rest : List Nat) :
    readLE w (leBytes w v ++ rest) = v % 2 ^ (8 * w) := by
  induction w generalizing v with
  | zero => simp [leBytes, readLE, Nat.mod_one]
  | succ w ih =>
    have h2 : (2 : Nat) ^ (8 * (w + 1)) = 256 * 2 ^ (8 * w) := by
      rw [Nat.mul_succ, pow_add, Nat.mul_comm]
      norm_num
    have hstep : leBytes (w + 1) v ++ rest
        = v % 256 :: (leBytes w (v / 256) ++ rest) := rfl
    rw [hstep]
    show v % 256 + 256 * readLE w (leBytes w (v / 256) ++ rest) = v % 2 ^ (8 * (w + 1))
    rw [ih, h2, Nat.mod_mul]

theorem calc_checksum_acc_lt (l : List Nat) (acc : Nat) (hacc : acc < 256)
    (h : ∀ b ∈ l, b < 256) : l.foldl (fun c b => c ^^^ b) acc < 256 := by
  induction l generalizing acc with
  | nil => simpa using hacc
  | cons x xs ih =>
    have hx : x < 256 := h x (by simp)
    have : acc ^^^ x < 256 := by
      have := Nat.xor_lt_two_pow (n := 8) (by simpa using hacc) (by simpa using hx)
      simpa using this
    exact ih _ this (fun b hb => h b (by simp [hb]))

theorem calculate_checksum_lt (l : List Nat) (h : ∀ b ∈ l, b < 256) :
    calculate_checksum l < 256 :=
  calc_checksum_acc_lt l 0 (by norm_num) h

theorem Msg.headerBytes_length (m : Msg) : m.headerBytes.length = 16 := by
  simp [Msg.headerBytes, leBytes_length]

theorem Msg.preBytes_length (m : Msg) :
    m.preBytes.length = get_message_size m.typeCode - 4 := by
  cases m <;>
    simp [Msg.preBytes, Msg.headerBytes, Msg.payloadBytes, Msg.typeCode,
      get_message_size, leBytes_length]

theorem Msg.encode_length (m : Msg) :
    m.encode.length = get_message_size m.typeCode := by
  cases m <;>
    simp [Msg.encode, Msg.preBytes, Msg.headerBytes, Msg.payloadBytes,
      Msg.typeCode, get_message_size, leBytes_length]

theorem Msg.size_cases (m : Msg) :
    get_message_size m.typeCode = 32 ∨ get_message_size m.typeCode = 44 ∨
      get_message_size m.typeCode = 20 := by
  cases m <;> simp [Msg.typeCode, get_message_size]

theorem Msg.size_pos (m : Msg) : 20 ≤ get_message_size m.typeCode := by
  rcases m.size_cases with h | h | h <;> omega

theorem Msg.size_le (m : Msg) : get_message_size m.typeCode ≤ 44 := by
  rcases m.size_cases with h | h | h <;> omega

theorem Msg.preBytes_lt (m : Msg) : ∀ b ∈ m.preBytes, b < 256 := by
  cases m with
  | trade s t y p q =>
    intro b hb
    simp only [Msg.preBytes, Msg.headerBytes, Msg.payloadBytes,
      List.append_assoc, List.mem_append] at hb
    rcases hb with h | h | h | h | h | h <;> exact leBytes_mem_lt _ _ _ h
  | quote s t y bp bq ap aq =>
    intro b hb
    simp only [Msg.preBytes, Msg.headerBytes, Msg.payloadBytes,
      List.append_assoc, List.mem_append] at hb
    rcases hb with h | h | h | h | h | h | h | h <;> exact leBytes_mem_lt _ _ _ h
  | heartbeat s t y =>
    intro b hb
    simp only [Msg.preBytes, Msg.headerBytes, Msg.payloadBytes,
      List.append_assoc, List.mem_append, List.append_nil] at hb
    rcases hb with h | h | h | h <;> exact leBytes_mem_lt _ _ _ h

theorem Msg.encode_lt (m : Msg) : ∀ b ∈ m.encode, b < 256 := by
  intro b hb
  simp only [Msg.encode, List.mem_append] at hb
  rcases hb with h | h
  · exact m.preBytes_lt b h
  · exact leBytes_mem_lt _ _ _ h

theorem Msg.typeCode_lt (m : Msg) : m.typeCode < 256 := by
  cases m <;> simp [Msg.typeCode]

theorem Msg.readLE_type (m : Msg) (rest : List Nat) :
    readLE 2 (m.encode ++ rest) = m.typeCode := by
  have h : m.encode ++ rest
      = leBytes 2 m.typeCode ++
        (leBytes 4 m.seqNum ++ leBytes 8 m.tsVal ++ leBytes 2 m.symId ++
          m.payloadBytes ++ leBytes 4 (calculate_checksum m.preBytes) ++ rest) := by
    simp [Msg.encode, Msg.preBytes, Msg.headerBytes, List.append_assoc]
  rw [h, readLE_leBytes]
  have := m.typeCode_lt
  omega

theorem Msg.drop_two_encode (m : Msg) (rest : List Nat) :
    (m.encode ++ rest).drop 2
      = leBytes 4 m.seqNum ++
        (leBytes 8 m.tsVal ++ leBytes 2 m.symId ++ m.payloadBytes ++
          leBytes 4 (calculate_checksum m.preBytes) ++ rest) := by
  have h : m.encode ++ rest
      = leBytes 2 m.typeCode ++
        (leBytes 4 m.seqNum ++
          (leBytes 8 m.tsVal ++ leBytes 2 m.symId ++ m.payloadBytes ++
            leBytes 4 (calculate_checksum m.preBytes) ++ rest)) := by
    simp [Msg.encode, Msg.preBytes, Msg.headerBytes, List.append_assoc]
  rw [h, List.drop_left' (leBytes_length 2 m.typeCode)]

theorem Msg.readLE_seq (m : Msg) (rest : List Nat) :
    readLE 4 ((m.encode ++ rest).drop 2) = m.seqNum % 2 ^ 32 := by
  rw [Msg.drop_two_encode, readLE_leBytes]

theorem Msg.validate_encode (m : Msg) : validate_checksum m.encode = true := by
  have hlen : m.encode.length = m.preBytes.length + 4 := by
    simp [Msg.encode, leBytes_length]
  have hsub : m.encode.length - 4 = m.preBytes.length := by omega
  have hc : calculate_checksum m.preBytes < 256 :=
    calculate_checksum_lt _ m.preBytes_lt
  have htake : m.encode.take (m.encode.length - 4) = m.preBytes := by
    rw [hsub, Msg.encode, List.take_left]
  have hdrop : m.encode.drop (m.encode.length - 4)
      = leBytes 4 (calculate_checksum m.preBytes) := by
    rw [hsub, Msg.encode, List.drop_left]
  have hstored : readLE 4 (m.encode.drop (m.encode.length - 4))
      = calculate_checksum m.preBytes := by
    rw [hdrop]
    have := readLE_leBytes 4 (calculate_checksum m.preBytes) []
    simpa using this.trans (Nat.mod_eq_of_lt (by omega))
  simp only [validate_checksum, htake, hstored]
  have h4 : ¬ m.encode.length < 4 := by omega
  simp [h4]

/-! ## Stream parser (`src/client/parser.cpp`)

`BinaryParser` is the parser state: the fragmentation buffer contents
(`buf` models `buffer_[0 .. buffer_pos_)`), the statistics counters, the
last observed sequence number, and — modelling the registered
`generic_handler_` — the list `events` of `(message bytes, msg_type)`
pairs the handler has been invoked with, in invocation order. -/

structure BinaryParser : Type where
  buf : List Nat
  messages_parsed : Nat
  sequence_gaps : Nat
  checksum_errors : Nat
  malformed_messages : Nat
  fragmented_messages : Nat
  last_seq_num : Nat
  events : List (List Nat × Nat)
  deriving DecidableEq

/-- The freshly constructed parser (parser.cpp:7-16), with a generic
handler registered. -/
def BinaryParser.init : BinaryParser :=
  ⟨[], 0, 0, 0, 0, 0, 0, []⟩

def BUFFER_SIZE : Nat := 65536

def MAX_MESSAGE_SIZE : Nat := 1024

/-- `BinaryParser::process_message` (parser.cpp:94-119): validate the
checksum (fail ⇒ `checksum_errors++`, drop), check the sequence number
(`uint32_t` arithmetic, hence the `% 2^32`), update `last_seq_num_`, then
invoke the generic handler. Returns the C++ `bool` and the new state. -/
def BinaryParser.process_message (st : BinaryParser) (msg : List Nat) (t : Nat) :
    Bool × BinaryParser :=
  if validate_checksum msg = false then
    (false, { st with checksum_errors := st.checksum_errors + 1 })
  else
    let seq := readLE 4 (msg.drop 2)
    let st1 := if st.last_seq_num ≠ 0 ∧ seq ≠ (st.last_seq_num + 1) % 2 ^ 32 then
      { st with sequence_gaps := st.sequence_gaps + 1 } else st
    (true, { st1 with last_seq_num := seq, events := st1.events ++ [(msg, t)] })

/-- `BinaryParser::try_parse_message` (parser.cpp:52-92): needs a full
16-byte header; unknown/oversized type ⇒ `malformed_messages++`, discard
one byte, return `false`; incomplete message ⇒ `fragmented_messages++`,
return `false`; otherwise process the message, count it if successful,
remove it from the buffer and return `true`. -/
def BinaryParser.try_parse_message (st : BinaryParser) : Bool × BinaryParser :=
  if st.buf.length < 16 then (false, st)
  else
    let t := readLE 2 st.buf
    let msg_size := get_message_size t
    if msg_size = 0 ∨ msg_size > MAX_MESSAGE_SIZE then
      (false, { st with malformed_messages := st.malformed_messages + 1,
                        buf := st.buf.drop 1 })
    else if st.buf.length < msg_size then
      (false, { st with fragmented_messages := st.fragmented_messages + 1 })
    else
      let r := st.process_message (st.buf.take msg_size) t
      let st2 := if r.1 then
        { r.2 with messages_parsed := r.2.messages_parsed + 1 } else r.2
      (true, { st2 with buf := st.buf.drop msg_size })

theorem BinaryParser.process_message_buf (st : BinaryParser) (msg : List Nat) (t : Nat) :
    (st.process_message msg t).2.buf = st.buf := by
  dsimp only [BinaryParser.process_message]
  split
  · rfl
  · split <;> rfl

theorem BinaryParser.try_parse_true_lt (st : BinaryParser)
    (h : (st.try_parse_message).1 = true) :
    (st.try_parse_message).2.buf.length < st.buf.length := by
  dsimp only [BinaryParser.try_parse_message] at h ⊢
  split at h
  · simp at h
  · rename_i h16
    split at h
    · simp at h
    · split at h
      · simp at h
      · rename_i hsz hlen
        split <;>
          · simp only [List.length_drop]
            omega

theorem BinaryParser.try_parse_le (st : BinaryParser) :
    (st.try_parse_message).2.buf.length ≤ st.buf.length := by
  dsimp only [BinaryParser.try_parse_message]
  split
  · simp
  · split
    · simp only [List.length_drop]
      omega
    · split
      · simp
      · split <;>
          · simp only [List.length_drop]
            omega

/-- The `while (try_parse_message()) {}` loop of `BinaryParser::parse`
(parser.cpp:38-40): keep extracting messages until `try_parse_message`
returns `false`. -/
def BinaryParser.parse_messages (st : BinaryParser) : BinaryParser :=
  if h : (st.try_parse_message).1 = true then
    (st.try_parse_message).2.parse_messages
  else (st.try_parse_message).2
termination_by st.buf.length
decreasing_by exact st.try_parse_true_lt h

theorem BinaryParser.parse_messages_le (st : BinaryParser) :
    st.parse_messages.buf.length ≤ st.buf.length := by
  unfold BinaryParser.parse_messages
  split
  · rename_i h
    have h1 := st.try_parse_true_lt h
    have h2 := BinaryParser.parse_messages_le (st.try_parse_message).2
    omega
  · exact st.try_parse_le
termination_by st.buf.length
decreasing_by exact st.try_parse_true_lt (by assumption)

theorem BinaryParser.parse_messages_full (st : BinaryParser)
    (hfull : BUFFER_SIZE ≤ st.buf.length) :
    st.parse_messages.buf.length < st.buf.length := by
  unfold BinaryParser.parse_messages
  split
  · rename_i h
    have h1 := st.try_parse_true_lt h
    have h2 := BinaryParser.parse_messages_le (st.try_parse_message).2
    omega
  · rename_i h
    dsimp only [BinaryParser.try_parse_message] at h ⊢
    rw [BUFFER_SIZE] at hfull
    split
    · omega
    · split
      · simp only [List.length_drop]
        omega
      · split
        · rename_i hsz hlen
          rw [MAX_MESSAGE_SIZE] at hsz
          omega
        · rename_i hsz hlen
          exfalso
          have h16 : ¬ st.buf.length < 16 := by omega
          rw [if_neg h16, if_neg hsz, if_neg hlen] at h
          exact h rfl

/-- The body of `BinaryParser::parse` (parser.cpp:27-47): while input
remains, copy `min(space, remaining)` bytes into the buffer, run the
message-extraction loop, apply the (unreachable, see parser.cpp:43-46)
full-buffer check, and continue with the rest of the input. -/
def BinaryParser.parse_go (st : BinaryParser) (rest : List Nat) : BinaryParser :=
  if rest.isEmpty then st
  else
    let to_copy := min (BUFFER_SIZE - st.buf.length) rest.length
    let st2 := BinaryParser.parse_messages { st with buf := st.buf ++ rest.take to_copy }
    let st3 := if BUFFER_SIZE ≤ st2.buf.length ∧ st2.buf.length < 16 then
      { st2 with malformed_messages := st2.malformed_messages + 1, buf := [] }
    else st2
    st3.parse_go (rest.drop to_copy)
termination_by rest.length * (BUFFER_SIZE + 1) + st.buf.length
decreasing_by
  rename_i hne
  have hrl : rest.length ≠ 0 := fun h0 => hne (List.isEmpty_iff_length_eq_zero.mpr h0)
  have hle := BinaryParser.parse_messages_le
    { st with buf := st.buf ++ rest.take (min (BUFFER_SIZE - st.buf.length) rest.length) }
  simp only [List.length_append, List.length_take, BUFFER_SIZE] at hle
  simp only [List.length_drop, List.length_nil, BUFFER_SIZE]
  split
  · rename_i hdead
    omega
  · by_cases hsp : 65536 - st.buf.length = 0
    · have hlt := BinaryParser.parse_messages_full
        { st with buf := st.buf ++ rest.take (min (BUFFER_SIZE - st.buf.length) rest.length) }
        (by simp only [List.length_append, List.length_take, BUFFER_SIZE]; omega)
      simp only [List.length_append, List.length_take, BUFFER_SIZE] at hlt
      omega
    · omega

/-- `BinaryParser::parse` (parser.cpp:21-50): zero-length input returns
immediately; otherwise run the copy/extract loop over the input. -/
def BinaryParser.parse (st : BinaryParser) (data : List Nat) : BinaryParser :=
  if data.length = 0 then st else st.parse_go data

/-! ### Behaviour of the extraction loop on well-formed streams -/

/-- The handler invocation a message gives rise to: the full message bytes
and the `msg_type` the dispatch switches on. -/
def Msg.event (m : Msg) : List Nat × Nat :=
  (m.encode, m.typeCode)

/-- The `sequence_gaps` increment `process_message` performs for one
message arriving with `last_seq_num_ = ls` (parser.cpp:106-108). -/
def gapStep (ls : Nat) (m : Msg) : Nat :=
  if ls ≠ 0 ∧ m.seqNum % 2 ^ 32 ≠ (ls + 1) % 2 ^ 32 then 1 else 0

/-- Total `sequence_gaps` increments over a run of messages. -/
def gapsAdded : Nat → List Msg → Nat
  | _, [] => 0
  | ls, m :: ms => gapStep ls m + gapsAdded (m.seqNum % 2 ^ 32) ms

/-- The value of `last_seq_num_` after a run of messages. -/
def lastAfter : Nat → List Msg → Nat
  | ls, [] => ls
  | _, m :: ms => lastAfter (m.seqNum % 2 ^ 32) ms

/-- `r` is a strict proper prefix of the encoding of some message — the
shape of the fragmentation buffer between messages. -/
def PartialMsg (r : List Nat) : Prop :=
  ∃ (m : Msg) (n : Nat), n < m.encode.length ∧ r = m.encode.take n

theorem encodeAll_nil : encodeAll [] = [] := rfl

theorem encodeAll_cons (m : Msg) (ms : List Msg) :
    encodeAll (m :: ms) = m.encode ++ encodeAll ms := by
  simp [encodeAll]

theorem readLE_take (w n : Nat) (l : List Nat) (h : w ≤ n) :
    readLE w (l.take n) = readLE w l := by
  induction w generalizing l n with
  | zero => rfl
  | succ w ih =>
    cases l with
    | nil => simp
    | cons b bs =>
      cases n with
      | zero => omega
      | succ n' =>
        simp only [List.take, readLE]
        rw [ih n' bs (by omega)]

theorem BinaryParser.process_encode (st : BinaryParser) (m : Msg) (t : Nat) :
    st.process_message m.encode t
      = (true, { st with
          sequence_gaps := st.sequence_gaps + gapStep st.last_seq_num m,
          last_seq_num := m.seqNum % 2 ^ 32,
          events := st.events ++ [(m.encode, t)] }) := by
  have hv : validate_checksum m.encode = true := m.validate_encode
  have hseq : readLE 4 (m.encode.drop 2) = m.seqNum % 2 ^ 32 := by
    have := m.readLE_seq []
    simpa using this
  dsimp only [BinaryParser.process_message]
  rw [hv, hseq]
  simp only [Bool.true_eq_false, if_false, gapStep]
  split
  · rfl
  · simp

theorem BinaryParser.try_parse_encode (st : BinaryParser) (m : Msg) (rest : List Nat)
    (hbuf : st.buf = m.encode ++ rest) :
    st.try_parse_message
      = (true, { st with
          buf := rest,
          messages_parsed := st.messages_parsed + 1,
          sequence_gaps := st.sequence_gaps + gapStep st.last_seq_num m,
          last_seq_num := m.seqNum % 2 ^ 32,
          events := st.events ++ [(m.encode, m.typeCode)] }) := by
  have hsz := m.size_pos
  have hszle := m.size_le
  have hlen : st.buf.length = get_message_size m.typeCode + rest.length := by
    simp [hbuf, m.encode_length]
  have h16 : ¬ st.buf.length < 16 := by omega
  have htype : readLE 2 st.buf = m.typeCode := by
    rw [hbuf, m.readLE_type]
  have hvalid : ¬ (get_message_size m.typeCode = 0 ∨
      get_message_size m.typeCode > MAX_MESSAGE_SIZE) := by
    rw [MAX_MESSAGE_SIZE]
    omega
  have hcomplete : ¬ st.buf.length < get_message_size m.typeCode := by omega
  have htake : st.buf.take (get_message_size m.typeCode) = m.encode := by
    rw [hbuf, ← m.encode_length, List.take_left]
  have hdrop : st.buf.drop (get_message_size m.typeCode) = rest := by
    rw [hbuf, ← m.encode_length, List.drop_left]
  dsimp only [BinaryParser.try_parse_message]
  rw [if_neg h16, htype, if_neg hvalid, if_neg hcomplete, htake, hdrop,
    st.process_encode m m.typeCode]
  rfl

theorem BinaryParser.try_parse_incomplete (st : BinaryParser) (m : Msg) (n : Nat)
    (hbuf : st.buf = m.encode.take n) (hn : n < m.encode.length) :
    st.try_parse_message
      = (false, if st.buf.length < 16 then st
          else { st with fragmented_messages := st.fragmented_messages + 1 }) := by
  have hlen : st.buf.length = n := by
    simp [hbuf, List.length_take]
    omega
  by_cases h16 : st.buf.length < 16
  · dsimp only [BinaryParser.try_parse_message]
    rw [if_pos h16, if_pos h16]
  · have htype : readLE 2 st.buf = m.typeCode := by
      rw [hbuf, readLE_take 2 n _ (by omega)]
      have := m.readLE_type []
      simpa using this
    have hvalid : ¬ (get_message_size m.typeCode = 0 ∨
        get_message_size m.typeCode > MAX_MESSAGE_SIZE) := by
      have := m.size_pos
      have := m.size_le
      rw [MAX_MESSAGE_SIZE]
      omega
    have hfrag : st.buf.length < get_message_size m.typeCode := by
      rw [hlen, ← m.encode_length] at *
      omega
    dsimp only [BinaryParser.try_parse_message]
    rw [if_neg h16, htype, if_neg hvalid, if_pos hfrag, if_neg h16]

/-- Full characterization of the `while (try_parse_message())` loop on a
buffer holding a run of complete well-formed messages followed by a strict
prefix of a next message: every complete message is validated, counted and
dispatched in order, and the prefix (plus one `fragmented_messages` hit if
it already exposes a header) is left in the buffer. -/
theorem BinaryParser.parse_messages_spec (ms : List Msg) (r : List Nat)
    (st : BinaryParser) (hbuf : st.buf = encodeAll ms ++ r) (hr : PartialMsg r) :
    st.parse_messages
      = { buf := r,
          messages_parsed := st.messages_parsed + ms.length,
          sequence_gaps := st.sequence_gaps + gapsAdded st.last_seq_num ms,
          checksum_errors := st.checksum_errors,
          malformed_messages := st.malformed_messages,
          fragmented_messages := st.fragmented_messages
            + (if r.length < 16 then 0 else 1),
          last_seq_num := lastAfter st.last_seq_num ms,
          events := st.events ++ ms.map Msg.event } := by
  induction ms generalizing st with
  | nil =>
    obtain ⟨m, n, hn, hrm⟩ := hr
    rw [encodeAll_nil, List.nil_append] at hbuf
    have hstop := st.try_parse_incomplete m n (hbuf.trans hrm) hn
    unfold BinaryParser.parse_messages
    split
    · rename_i htrue
      rw [hstop] at htrue
      simp at htrue
    · rw [hstop]
      dsimp only
      rw [hbuf]
      simp only [gapsAdded, lastAfter, List.map_nil, List.append_nil,
        List.length_nil, Nat.add_zero]
      by_cases h16 : r.length < 16
      · rw [if_pos h16, if_pos h16]
        cases st
        simp_all
      · rw [if_neg h16, if_neg h16]
  | cons m ms ih =>
    rw [encodeAll_cons, List.append_assoc] at hbuf
    have hstep := st.try_parse_encode m (encodeAll ms ++ r) hbuf
    unfold BinaryParser.parse_messages
    split
    · rw [hstep]
      dsimp only
      rw [ih _ rfl]
      simp only [gapsAdded, lastAfter, List.map_cons, List.length_cons, Msg.event,
        BinaryParser.mk.injEq, List.append_assoc, List.singleton_append,
        List.cons_append, true_and, and_true, eq_self_iff_true]
      refine ⟨by omega, by omega, ?_⟩
      simp
    · rename_i hfalse
      rw [hstep] at hfalse
      simp at hfalse

/-! ### Stream positions: which messages are complete after `n` bytes -/

/-- The messages of `M` that lie entirely within the first `n` bytes of
`encodeAll M` (the greedy framer dispatches exactly these). -/
def consumedMsgs : List Msg → Nat → List Msg
  | [], _ => []
  | m :: ms, n => if m.encode.length ≤ n then m :: consumedMsgs ms (n - m.encode.length) else []

/-- The bytes of the first incomplete message among the first `n` bytes of
`encodeAll M` (what the fragmentation buffer holds). -/
def leftoverBytes : List Msg → Nat → List Nat
  | [], _ => []
  | m :: ms, n => if m.encode.length ≤ n then leftoverBytes ms (n - m.encode.length) else m.encode.take n

/-- The messages of `M` not yet complete after `n` bytes. -/
def pendingMsgs : List Msg → Nat → List Msg
  | [], _ => []
  | m :: ms, n => if m.encode.length ≤ n then pendingMsgs ms (n - m.encode.length) else m :: ms

theorem encodeAll_append (a b : List Msg) :
    encodeAll (a ++ b) = encodeAll a ++ encodeAll b := by
  simp [encodeAll]

theorem take_encodeAll (P : List Msg) (n : Nat) :
    (encodeAll P).take n = encodeAll (consumedMsgs P n) ++ leftoverBytes P n := by
  induction P generalizing n with
  | nil => simp [encodeAll_nil, consumedMsgs, leftoverBytes]
  | cons m ms ih =>
    rw [encodeAll_cons]
    by_cases h : m.encode.length ≤ n
    · rw [List.take_append_eq_append_take, List.take_of_length_le h,
        consumedMsgs, leftoverBytes, if_pos h, if_pos h, encodeAll_cons,
        List.append_assoc, ih]
    · rw [List.take_append_eq_append_take, consumedMsgs, leftoverBytes,
        if_neg h, if_neg h]
      have h0 : n - m.encode.length = 0 := by omega
      simp [h0, encodeAll_nil]

theorem leftoverBytes_le (P : List Msg) (n : Nat) :
    (leftoverBytes P n).length ≤ 43 := by
  induction P generalizing n with
  | nil => simp [leftoverBytes]
  | cons m ms ih =>
    rw [leftoverBytes]
    by_cases h : m.encode.length ≤ n
    · rw [if_pos h]
      exact ih _
    · rw [if_neg h]
      have := m.size_le
      have := m.encode_length
      simp only [List.length_take]
      omega

theorem leftoverBytes_frag (P : List Msg) (n : Nat) :
    PartialMsg (leftoverBytes P n) := by
  induction P generalizing n with
  | nil =>
    exact ⟨Msg.heartbeat 0 0 0, 0, by
      rw [Msg.encode_length]
      simp [Msg.typeCode, get_message_size], rfl⟩
  | cons m ms ih =>
    rw [leftoverBytes]
    by_cases h : m.encode.length ≤ n
    · rw [if_pos h]
      exact ih _
    · rw [if_neg h]
      exact ⟨m, n, by omega, rfl⟩

theorem consumedMsgs_cascade (P : List Msg) (n k : Nat) :
    consumedMsgs P (n + k)
      = consumedMsgs P n
        ++ consumedMsgs (pendingMsgs P n) ((leftoverBytes P n).length + k) := by
  induction P generalizing n with
  | nil => simp [consumedMsgs, pendingMsgs, leftoverBytes]
  | cons m ms ih =>
    by_cases h : m.encode.length ≤ n
    · have e1 : pendingMsgs (m :: ms) n = pendingMsgs ms (n - m.encode.length) := by
        rw [pendingMsgs, if_pos h]
      have e2 : leftoverBytes (m :: ms) n = leftoverBytes ms (n - m.encode.length) := by
        rw [leftoverBytes, if_pos h]
      have e3 : consumedMsgs (m :: ms) n = m :: consumedMsgs ms (n - m.encode.length) := by
        rw [consumedMsgs, if_pos h]
      have e4 : consumedMsgs (m :: ms) (n + k)
          = m :: consumedMsgs ms ((n - m.encode.length) + k) := by
        have harith : n + k - m.encode.length = n - m.encode.length + k := by omega
        rw [consumedMsgs, if_pos (by omega : m.encode.length ≤ n + k), harith]
      rw [e4, e1, e2, e3, ih]
      simp
    · have e1 : pendingMsgs (m :: ms) n = m :: ms := by
        rw [pendingMsgs, if_neg h]
      have e2 : leftoverBytes (m :: ms) n = m.encode.take n := by
        rw [leftoverBytes, if_neg h]
      have e3 : consumedMsgs (m :: ms) n = [] := by
        rw [consumedMsgs, if_neg h]
      have hlen : (m.encode.take n).length = n := by
        simp only [List.length_take]
        omega
      rw [e1, e2, e3, hlen, List.nil_append]

theorem leftoverBytes_cascade (P : List Msg) (n k : Nat) :
    leftoverBytes P (n + k)
      = leftoverBytes (pendingMsgs P n) ((leftoverBytes P n).length + k) := by
  induction P generalizing n with
  | nil => simp [pendingMsgs, leftoverBytes]
  | cons m ms ih =>
    by_cases h : m.encode.length ≤ n
    · have e1 : pendingMsgs (m :: ms) n = pendingMsgs ms (n - m.encode.length) := by
        rw [pendingMsgs, if_pos h]
      have e2 : leftoverBytes (m :: ms) n = leftoverBytes ms (n - m.encode.length) := by
        rw [leftoverBytes, if_pos h]
      have e3 : leftoverBytes (m :: ms) (n + k)
          = leftoverBytes ms ((n - m.encode.length) + k) := by
        have harith : n + k - m.encode.length = n - m.encode.length + k := by omega
        rw [leftoverBytes, if_pos (by omega : m.encode.length ≤ n + k), harith]
      rw [e3, e1, e2, ih]
    · have e1 : pendingMsgs (m :: ms) n = m :: ms := by
        rw [pendingMsgs, if_neg h]
      have e2 : leftoverBytes (m :: ms) n = m.encode.take n := by
        rw [leftoverBytes, if_neg h]
      have hlen : (m.encode.take n).length = n := by
        simp only [List.length_take]
        omega
      rw [e1, e2, hlen]

theorem consumedMsgs_total (P : List Msg) (n : Nat)
    (h : (encodeAll P).length ≤ n) : consumedMsgs P n = P := by
  induction P generalizing n with
  | nil => rfl
  | cons m ms ih =>
    rw [encodeAll_cons, List.length_append] at h
    rw [consumedMsgs, if_pos (by omega)]
    rw [ih _ (by omega)]

theorem leftoverBytes_total (P : List Msg) (n : Nat)
    (h : (encodeAll P).length ≤ n) : leftoverBytes P n = [] := by
  induction P generalizing n with
  | nil => rfl
  | cons m ms ih =>
    rw [encodeAll_cons, List.length_append] at h
    rw [leftoverBytes, if_pos (by omega)]
    exact ih _ (by omega)

theorem consumedMsgs_zero (P : List Msg) : consumedMsgs P 0 = [] := by
  cases P with
  | nil => rfl
  | cons m ms =>
    have h : ¬ m.encode.length ≤ 0 := by
      have := m.size_pos
      have := m.encode_length
      omega
    rw [consumedMsgs, if_neg h]

theorem leftoverBytes_zero (P : List Msg) : leftoverBytes P 0 = [] := by
  cases P with
  | nil => rfl
  | cons m ms =>
    have h : ¬ m.encode.length ≤ 0 := by
      have := m.size_pos
      have := m.encode_length
      omega
    rw [leftoverBytes, if_neg h]
    simp

theorem gapsAdded_append (ls : Nat) (a b : List Msg) :
    gapsAdded ls (a ++ b) = gapsAdded ls a + gapsAdded (lastAfter ls a) b := by
  induction a generalizing ls with
  | nil => simp [gapsAdded, lastAfter]
  | cons m ms ih =>
    show gapStep ls m + gapsAdded (m.seqNum % 2 ^ 32) (ms ++ b)
        = gapStep ls m + gapsAdded (m.seqNum % 2 ^ 32) ms
          + gapsAdded (lastAfter (m.seqNum % 2 ^ 32) ms) b
    rw [ih]
    omega

theorem lastAfter_append (ls : Nat) (a b : List Msg) :
    lastAfter ls (a ++ b) = lastAfter (lastAfter ls a) b := by
  induction a generalizing ls with
  | nil => simp [lastAfter]
  | cons m ms ih =>
    show lastAfter (m.seqNum % 2 ^ 32) (ms ++ b)
        = lastAfter (lastAfter (m.seqNum % 2 ^ 32) ms) b
    exact ih _

theorem BinaryParser.parse_go_nil (st : BinaryParser) : st.parse_go [] = st := by
  unfold BinaryParser.parse_go
  rfl

theorem BinaryParser.parse_nil (st : BinaryParser) : st.parse [] = st := rfl

theorem dead_check_skip (x : Nat) : ¬ (BUFFER_SIZE ≤ x ∧ x < 16) := by
  rw [BUFFER_SIZE]
  omega

/-- A `parse` call whose input fits in the remaining buffer space is one
copy followed by the extraction loop. -/
theorem BinaryParser.parse_one (st : BinaryParser) (c : List Nat)
    (hc : c.length ≠ 0) (hlen : st.buf.length + c.length ≤ BUFFER_SIZE) :
    st.parse c = BinaryParser.parse_messages { st with buf := st.buf ++ c } := by
  have hne : ¬ c.isEmpty = true := by
    intro h
    exact hc (List.isEmpty_iff_length_eq_zero.mp h)
  have hmin : min (BUFFER_SIZE - st.buf.length) c.length = c.length := by omega
  unfold BinaryParser.parse
  rw [if_neg hc]
  unfold BinaryParser.parse_go
  rw [if_neg hne]
  dsimp only
  rw [hmin, List.take_length, List.drop_length,
    if_neg (dead_check_skip _), BinaryParser.parse_go_nil]

theorem BinaryParser.try_parse_garbage (st : BinaryParser)
    (h16 : ¬ st.buf.length < 16)
    (hbad : get_message_size (readLE 2 st.buf) = 0) :
    st.try_parse_message
      = (false, { st with malformed_messages := st.malformed_messages + 1,
                          buf := st.buf.drop 1 }) := by
  dsimp only [BinaryParser.try_parse_message]
  rw [if_neg h16, if_pos (Or.inl hbad)]

theorem BinaryParser.parse_messages_garbage (st : BinaryParser)
    (h16 : ¬ st.buf.length < 16)
    (hbad : get_message_size (readLE 2 st.buf) = 0) :
    st.parse_messages
      = { st with malformed_messages := st.malformed_messages + 1,
                  buf := st.buf.drop 1 } := by
  unfold BinaryParser.parse_messages
  split
  · rename_i h
    rw [st.try_parse_garbage h16 hbad] at h
    simp at h
  · rw [st.try_parse_garbage h16 hbad]

/-! ### The chunking invariant -/

/-- The parser state reached after feeding the first `n` bytes of
`encodeAll M` to a fresh parser, in any chunking: the buffer holds the
bytes of the first incomplete message, and exactly the complete messages
have been counted and dispatched (`fragmented_messages` depends on the
chunk boundaries and is unconstrained). -/
def SyncedAt (st : BinaryParser) (M : List Msg) (n : Nat) : Prop :=
  st.buf = leftoverBytes M n ∧
  st.messages_parsed = (consumedMsgs M n).length ∧
  st.sequence_gaps = gapsAdded 0 (consumedMsgs M n) ∧
  st.checksum_errors = 0 ∧
  st.malformed_messages = 0 ∧
  st.last_seq_num = lastAfter 0 (consumedMsgs M n) ∧
  st.events = (consumedMsgs M n).map Msg.event

theorem BinaryParser.parse_go_sync (M : List Msg) (k : Nat) :
    ∀ (n : Nat) (st : BinaryParser), SyncedAt st M n →
      n + k ≤ (encodeAll M).length →
      SyncedAt (st.parse_go (((encodeAll M).drop n).take k)) M (n + k) := by
  induction k using Nat.strong_induction_on with
  | _ k ihk =>
  intro n st hsync hnk
  by_cases hk : k = 0
  · subst hk
    simpa [List.take_zero, BinaryParser.parse_go_nil] using hsync
  · obtain ⟨hbuf, hparsed, hgaps, hchk, hmal, hlast, hev⟩ := hsync
    have hblen : st.buf.length ≤ 43 := by
      rw [hbuf]
      exact leftoverBytes_le M n
    have hclen : (((encodeAll M).drop n).take k).length = k := by
      simp only [List.length_take, List.length_drop]
      omega
    have hne : ¬ (((encodeAll M).drop n).take k).isEmpty = true := by
      intro h
      exact hk (hclen ▸ List.isEmpty_iff_length_eq_zero.mp h)
    have hB : BUFFER_SIZE = 65536 := rfl
    unfold BinaryParser.parse_go
    rw [if_neg hne]
    dsimp only
    rw [hclen]
    set T := min (BUFFER_SIZE - st.buf.length) k with hT
    have hT1 : 1 ≤ T := by omega
    have hTk : T ≤ k := by omega
    -- the copied bytes are the next `T` bytes of the stream
    have htakeT : (((encodeAll M).drop n).take k).take T
        = ((encodeAll M).drop n).take T := by
      rw [List.take_take]
      congr 1
      omega
    -- decompose the new buffer contents
    have hkey : st.buf ++ (((encodeAll M).drop n).take k).take T
        = encodeAll (consumedMsgs (pendingMsgs M n) ((leftoverBytes M n).length + T))
          ++ leftoverBytes M (n + T) := by
      rw [htakeT]
      have hA : encodeAll (consumedMsgs M n) ++ (leftoverBytes M n
            ++ ((encodeAll M).drop n).take T)
          = encodeAll (consumedMsgs M n)
            ++ (encodeAll (consumedMsgs (pendingMsgs M n)
                  ((leftoverBytes M n).length + T))
              ++ leftoverBytes M (n + T)) := by
        rw [← List.append_assoc, ← take_encodeAll, ← List.take_add,
          take_encodeAll, consumedMsgs_cascade M n T, encodeAll_append,
          leftoverBytes_cascade M n T, List.append_assoc]
      rw [hbuf]
      exact List.append_cancel_left hA
    rw [hkey]
    rw [BinaryParser.parse_messages_spec _ _ _ rfl (leftoverBytes_frag M (n + T))]
    dsimp only
    rw [if_neg (dead_check_skip _)]
    -- the remaining input is the stream slice after `n + T`
    have hdropT : (((encodeAll M).drop n).take k).drop T
        = ((encodeAll M).drop (n + T)).take (k - T) := by
      rw [List.drop_take, List.drop_drop]
    rw [hdropT]
    -- the intermediate state is synced at `n + T`
    have hsync2 : SyncedAt
        { buf := leftoverBytes M (n + T),
          messages_parsed := st.messages_parsed
            + (consumedMsgs (pendingMsgs M n) ((leftoverBytes M n).length + T)).length,
          sequence_gaps := st.sequence_gaps
            + gapsAdded st.last_seq_num
                (consumedMsgs (pendingMsgs M n) ((leftoverBytes M n).length + T)),
          checksum_errors := st.checksum_errors,
          malformed_messages := st.malformed_messages,
          fragmented_messages := st.fragmented_messages
            + (if (leftoverBytes M (n + T)).length < 16 then 0 else 1),
          last_seq_num := lastAfter st.last_seq_num
            (consumedMsgs (pendingMsgs M n) ((leftoverBytes M n).length + T)),
          events := st.events
            ++ (consumedMsgs (pendingMsgs M n)
                ((leftoverBytes M n).length + T)).map Msg.event } M (n + T) := by
      refine ⟨rfl, ?_, ?_, hchk, hmal, ?_, ?_⟩
      · rw [hparsed, consumedMsgs_cascade M n T, List.length_append]
      · rw [hgaps, hlast, consumedMsgs_cascade M n T, gapsAdded_append]
      · rw [hlast, consumedMsgs_cascade M n T, lastAfter_append]
      · rw [hev, consumedMsgs_cascade M n T, List.map_append]
    have hfin := ihk (k - T) (by omega) (n + T) _ hsync2 (by omega)
    have harr : n + T + (k - T) = n + k := by omega
    rw [harr] at hfin
    exact hfin

/-- Feeding a sequence of byte chunks to the parser: successive
`BinaryParser::parse` calls. -/
def feedChunks (st : BinaryParser) (cs : List (List Nat)) : BinaryParser :=
  cs.foldl BinaryParser.parse st

theorem feedChunks_sync (M : List Msg) (cs : List (List Nat)) :
    ∀ (n : Nat) (st : BinaryParser), SyncedAt st M n →
      n + cs.flatten.length ≤ (encodeAll M).length →
      cs.flatten = ((encodeAll M).drop n).take cs.flatten.length →
      SyncedAt (feedChunks st cs) M (n + cs.flatten.length) := by
  induction cs with
  | nil =>
    intro n st hsync _ _
    simpa [feedChunks] using hsync
  | cons c cs ih =>
    intro n st hsync hle hsl
    have hflat : (c :: cs).flatten = c ++ cs.flatten := rfl
    rw [hflat] at hle hsl ⊢
    rw [List.length_append] at hle hsl ⊢
    have hc : c = ((encodeAll M).drop n).take c.length := by
      have h1 := congrArg (List.take c.length) hsl
      rw [List.take_left, List.take_take] at h1
      rwa [min_eq_left (by omega)] at h1
    have hrest : cs.flatten = ((encodeAll M).drop (n + c.length)).take cs.flatten.length := by
      have h1 := congrArg (List.drop c.length) hsl
      rw [List.drop_left, List.drop_take, List.drop_drop] at h1
      rwa [Nat.add_sub_cancel_left] at h1
    have hfeed : feedChunks st (c :: cs) = feedChunks (st.parse c) cs := rfl
    rw [hfeed]
    by_cases hc0 : c.length = 0
    · have hcnil : c = [] := List.length_eq_zero.mp hc0
      rw [hcnil, BinaryParser.parse_nil]
      have := ih n st hsync (by omega) (by simpa [hc0] using hrest)
      simp only [List.length_nil, Nat.zero_add]
      exact this
    · have hpc : st.parse c = st.parse_go (((encodeAll M).drop n).take c.length) := by
        have hpg : st.parse c = st.parse_go c := by
          unfold BinaryParser.parse
          rw [if_neg hc0]
        rw [hpg]
        exact congrArg st.parse_go hc
      have hstep : SyncedAt (st.parse_go (((encodeAll M).drop n).take c.length))
          M (n + c.length) :=
        BinaryParser.parse_go_sync M c.length n st hsync (by omega)
      rw [hpc]
      have := ih (n + c.length) _ hstep (by omega) hrest
      have harr : n + c.length + cs.flatten.length = n + (c.length + cs.flatten.length) := by
        omega
      rwa [harr] at this

/-- Consecutive per-stream sequence numbers (the well-formedness the claim
assumes of `M`). -/
abbrev ConsecutiveSeq (ms : List Msg) : Prop :=
  List.Chain' (fun a b => b.seqNum = a.seqNum + 1) ms

theorem synced_init (M : List Msg) : SyncedAt BinaryParser.init M 0 := by
  refine ⟨?_, ?_, ?_, rfl, rfl, ?_, ?_⟩ <;>
    simp [BinaryParser.init, consumedMsgs_zero, leftoverBytes_zero, gapsAdded, lastAfter]

/-- C2: for every list `M` of well-formed messages (checksums correct by
construction of `Msg.encode`, consecutive sequence numbers) and every
chunking `cs` of `encodeAll M` into arbitrary-sized slices, feeding the
slices in order invokes the registered handler exactly once per message of
`M`, in the order of `M`. -/
theorem c2_chunked_stream_dispatch (M : List Msg) (cs : List (List Nat))
    (hconsec : ConsecutiveSeq M) (hjoin : cs.flatten = encodeAll M) :
    (feedChunks BinaryParser.init cs).events = M.map Msg.event := by
  have hlen : cs.flatten.length = (encodeAll M).length := by rw [hjoin]
  have hsl : cs.flatten = ((encodeAll M).drop 0).take cs.flatten.length := by
    rw [List.drop_zero, hlen, List.take_length, hjoin]
  have h := feedChunks_sync M cs 0 BinaryParser.init (synced_init M) (by omega) hsl
  obtain ⟨_, _, _, _, _, _, hev⟩ := h
  rw [hev, consumedMsgs_total M _ (by omega)]

theorem partialMsg_nil : PartialMsg [] :=
  ⟨Msg.heartbeat 0 0 0, 0, by
    rw [Msg.encode_length]
    simp [Msg.typeCode, get_message_size], rfl⟩

/-- Concrete stream for the C2 witness: two consecutive heartbeats. -/
def c2Msgs : List Msg := [Msg.heartbeat 1 11 2, Msg.heartbeat 2 12 2]

/-- The C2 witness chunking: one-byte slices. -/
def c2Chunks : List (List Nat) := (encodeAll c2Msgs).map (fun b => [b])

theorem c2_chunked_stream_dispatch_witness :
    ConsecutiveSeq c2Msgs ∧ c2Chunks.flatten = encodeAll c2Msgs ∧
    (feedChunks BinaryParser.init c2Chunks).events = c2Msgs.map Msg.event :=
  ⟨by simp [c2Msgs, List.chain'_cons, List.chain'_singleton, Msg.seqNum],
    by decide,
    c2_chunked_stream_dispatch c2Msgs c2Chunks
      (by simp [c2Msgs, List.chain'_cons, List.chain'_singleton, Msg.seqNum])
      (by decide)⟩

/-! ### C6: sequence-gap accounting -/

def c6MsgA : Msg := Msg.heartbeat 1 100 7

def c6MsgB : Msg := Msg.heartbeat 3 200 7

/-- C6: a checksum-valid message whose `seq_num` is not `last_seq + 1`
(in `uint32_t` arithmetic) with `last_seq ≠ 0` bumps `sequence_gaps` by
one, updates `last_seq_num_` and is still dispatched; concretely `seq=1`
then `seq=3` gives one gap with both messages dispatched. -/
theorem c6_sequence_gap_counting :
    (∀ (st : BinaryParser) (msg : List Nat) (t : Nat),
        validate_checksum msg = true → st.last_seq_num ≠ 0 →
        readLE 4 (msg.drop 2) ≠ (st.last_seq_num + 1) % 2 ^ 32 →
        st.process_message msg t
          = (true, { st with
              sequence_gaps := st.sequence_gaps + 1,
              last_seq_num := readLE 4 (msg.drop 2),
              events := st.events ++ [(msg, t)] }))
    ∧ (BinaryParser.init.parse (encodeAll [c6MsgA, c6MsgB])).sequence_gaps = 1
    ∧ (BinaryParser.init.parse (encodeAll [c6MsgA, c6MsgB])).events
        = [c6MsgA.event, c6MsgB.event] := by
  have h1 := BinaryParser.parse_one BinaryParser.init (encodeAll [c6MsgA, c6MsgB])
    (by decide) (by decide)
  have h2 := BinaryParser.parse_messages_spec [c6MsgA, c6MsgB] []
    { BinaryParser.init with
        buf := BinaryParser.init.buf ++ encodeAll [c6MsgA, c6MsgB] }
    (by simp [BinaryParser.init]) partialMsg_nil
  have hst := h1.trans h2
  refine ⟨?_, ?_, ?_⟩
  · intro st msg t hv hls hneq
    dsimp only [BinaryParser.process_message]
    rw [hv]
    simp only [Bool.true_eq_false, if_false]
    rw [if_pos ⟨hls, hneq⟩]
  · rw [hst]
    decide
  · rw [hst]
    decide

def c6WState : BinaryParser := { BinaryParser.init with last_seq_num := 5 }

def c6WMsg : List Nat := (Msg.heartbeat 9 0 0).encode

theorem c6_sequence_gap_counting_witness :
    validate_checksum c6WMsg = true ∧ c6WState.last_seq_num ≠ 0 ∧
    readLE 4 (c6WMsg.drop 2) ≠ (c6WState.last_seq_num + 1) % 2 ^ 32 ∧
    c6WState.process_message c6WMsg 3
      = (true, { c6WState with
          sequence_gaps := c6WState.sequence_gaps + 1,
          last_seq_num := readLE 4 (c6WMsg.drop 2),
          events := c6WState.events ++ [(c6WMsg, 3)] }) :=
  ⟨by decide, by decide, by decide,
    c6_sequence_gap_counting.1 c6WState c6WMsg 3 (by decide) (by decide) (by decide)⟩

/-! ### C5: one-byte resync does not retry extraction within the call -/

def c5Heartbeat : Msg := Msg.heartbeat 1 44 5

/-- One garbage byte followed by a complete, valid 20-byte heartbeat. -/
def c5Input : List Nat := 0 :: c5Heartbeat.encode

/-- C5 (divergence witness): feeding `c5Input` in a single `parse` call
increments `malformed_messages` and discards the garbage byte, but
`try_parse_message` returns `false` after the resync (parser.cpp:71), so
extraction is not retried: the complete valid heartbeat stays in the
buffer and the handler is not invoked during this call. -/
theorem c5_no_retry_within_call :
    (BinaryParser.init.parse c5Input).events = [] ∧
    (BinaryParser.init.parse c5Input).malformed_messages = 1 ∧
    (BinaryParser.init.parse c5Input).buf = c5Heartbeat.encode ∧
    (BinaryParser.init.parse c5Input).messages_parsed = 0 := by
  have h1 := BinaryParser.parse_one BinaryParser.init c5Input (by decide) (by decide)
  have h2 := BinaryParser.parse_messages_garbage
    { BinaryParser.init with buf := BinaryParser.init.buf ++ c5Input }
    (by decide) (by decide)
  have hst := h1.trans h2
  rw [hst]
  refine ⟨rfl, rfl, by decide, rfl⟩

/-! ### C4: single-bit corruption -/

/-- Flip bit `k` of byte `i` of a byte string. -/
def flipAt (l : List Nat) (i k : Nat) : List Nat :=
  l.set i (l.getD i 0 ^^^ 2 ^ k)

theorem foldl_xor_out (t : List Nat) (acc x : Nat) :
    t.foldl (fun c b => c ^^^ b) (acc ^^^ x) = t.foldl (fun c b => c ^^^ b) acc ^^^ x := by
  induction t generalizing acc with
  | nil => rfl
  | cons b bs ih =>
    simp only [List.foldl_cons]
    rw [show acc ^^^ x ^^^ b = acc ^^^ b ^^^ x by
      rw [Nat.xor_assoc, Nat.xor_assoc, Nat.xor_comm x b]]
    exact ih _

theorem foldl_xor_set (l : List Nat) (x : Nat) :
    ∀ (i acc : Nat), i < l.length →
      (l.set i (l.getD i 0 ^^^ x)).foldl (fun c b => c ^^^ b) acc
        = l.foldl (fun c b => c ^^^ b) acc ^^^ x := by
  induction l with
  | nil =>
    intro i acc h
    simp at h
  | cons b bs ih =>
    intro i acc h
    cases i with
    | zero =>
      show ((b ^^^ x) :: bs).foldl (fun c b => c ^^^ b) acc
          = (b :: bs).foldl (fun c b => c ^^^ b) acc ^^^ x
      simp only [List.foldl_cons]
      rw [show acc ^^^ (b ^^^ x) = acc ^^^ b ^^^ x from (Nat.xor_assoc _ _ _).symm]
      exact foldl_xor_out bs (acc ^^^ b) x
    | succ i' =>
      show (b :: bs.set i' (bs.getD i' 0 ^^^ x)).foldl (fun c b => c ^^^ b) acc
          = (b :: bs).foldl (fun c b => c ^^^ b) acc ^^^ x
      simp only [List.foldl_cons]
      exact ih i' (acc ^^^ b) (by simpa using h)

theorem checksum_set (l : List Nat) (i x : Nat) (h : i < l.length) :
    calculate_checksum (l.set i (l.getD i 0 ^^^ x)) = calculate_checksum l ^^^ x :=
  foldl_xor_set l x i 0 h

theorem xor_ne_self (a x : Nat) (hx : x ≠ 0) : a ^^^ x ≠ a := by
  intro h
  apply hx
  have h2 := congrArg (fun y => a ^^^ y) h
  simpa [← Nat.xor_assoc, Nat.xor_self, Nat.zero_xor] using h2

theorem set_append_lt (a b : List Nat) (i v : Nat) (h : i < a.length) :
    (a ++ b).set i v = a.set i v ++ b := by
  induction a generalizing i with
  | nil => simp at h
  | cons x xs ih =>
    cases i with
    | zero => rfl
    | succ i' =>
      show x :: (xs ++ b).set i' v = x :: (xs.set i' v ++ b)
      rw [ih i' (by simpa using h)]

theorem set_append_ge (a b : List Nat) (i v : Nat) (h : a.length ≤ i) :
    (a ++ b).set i v = a ++ b.set (i - a.length) v := by
  induction a generalizing i with
  | nil => simp
  | cons x xs ih =>
    cases i with
    | zero => simp at h
    | succ i' =>
      have harith : i' + 1 - (x :: xs).length = i' - xs.length := by
        simp [List.length_cons]
      show x :: (xs ++ b).set i' v = x :: (xs ++ b.set (i' + 1 - (x :: xs).length) v)
      rw [harith, ih i' (by simpa using h)]

theorem getD_set_self (l : List Nat) (i v : Nat) (h : i < l.length) :
    (l.set i v).getD i 0 = v := by
  induction l generalizing i with
  | nil => simp at h
  | cons x xs ih =>
    cases i with
    | zero => rfl
    | succ i' => exact ih i' (by simpa using h)

theorem readLE_set_ge (w : Nat) : ∀ (l : List Nat) (i v : Nat), w ≤ i →
    readLE w (l.set i v) = readLE w l := by
  induction w with
  | zero => intro l i v _; rfl
  | succ w ih =>
    intro l i v h
    cases l with
    | nil => rfl
    | cons b bs =>
      cases i with
      | zero => omega
      | succ i' =>
        show readLE (w + 1) (b :: bs.set i' v) = readLE (w + 1) (b :: bs)
        simp only [readLE]
        rw [ih bs i' v (by omega)]

theorem readLE_inj (w : Nat) : ∀ (l1 l2 : List Nat), l1.length = w → l2.length = w →
    (∀ b ∈ l1, b < 256) → (∀ b ∈ l2, b < 256) →
    readLE w l1 = readLE w l2 → l1 = l2 := by
  induction w with
  | zero =>
    intro l1 l2 h1 h2 _ _ _
    rw [List.length_eq_zero] at h1 h2
    rw [h1, h2]
  | succ w ih =>
    intro l1 l2 h1 h2 hb1 hb2 he
    cases l1 with
    | nil => simp at h1
    | cons a t1 =>
      cases l2 with
      | nil => simp at h2
      | cons b t2 =>
        simp only [readLE] at he
        have ha : a < 256 := hb1 a (by simp)
        have hb : b < 256 := hb2 b (by simp)
        have hab : a = b ∧ readLE w t1 = readLE w t2 := by omega
        have ht : t1 = t2 := ih t1 t2 (by simpa using h1) (by simpa using h2)
          (fun y hy => hb1 y (by simp [hy])) (fun y hy => hb2 y (by simp [hy])) hab.2
        rw [hab.1, ht]

theorem two_pow_lt_256 (k : Nat) (hk : k < 8) : 2 ^ k < 256 := by
  calc 2 ^ k < 2 ^ 8 := Nat.pow_lt_pow_right (by norm_num) hk
    _ = 256 := by norm_num

/-- Flipping any single bit at a byte offset `≥ 2` (outside the `msg_type`
field) of a well-formed message invalidates its checksum. -/
theorem validate_flip (m : Msg) (i kb : Nat)
    (h2i : 2 ≤ i) (hi : i < m.encode.length) (hk : kb < 8) :
    validate_checksum (flipAt m.encode i kb) = false := by
  have hxne : (2 : Nat) ^ kb ≠ 0 := (pow_pos (by norm_num : (0 : Nat) < 2) kb).ne'
  have hc : calculate_checksum m.preBytes < 256 := calculate_checksum_lt _ m.preBytes_lt
  have hel : m.encode.length = m.preBytes.length + 4 := by
    simp [Msg.encode, leBytes_length]
  by_cases hcase : i < m.preBytes.length
  · -- flip inside header/payload: the recomputed checksum changes
    have hgd : m.encode.getD i 0 = m.preBytes.getD i 0 := by
      rw [Msg.encode, List.getD_append _ _ _ _ hcase]
    have hsplit : flipAt m.encode i kb
        = m.preBytes.set i (m.preBytes.getD i 0 ^^^ 2 ^ kb)
          ++ leBytes 4 (calculate_checksum m.preBytes) := by
      rw [flipAt, hgd, Msg.encode, set_append_lt _ _ _ _ hcase]
    have hlenf : (flipAt m.encode i kb).length = m.preBytes.length + 4 := by
      simp [flipAt, hel]
    have hsetlen : (m.preBytes.set i (m.preBytes.getD i 0 ^^^ 2 ^ kb)).length
        = m.preBytes.length := by simp
    have htake : (flipAt m.encode i kb).take ((flipAt m.encode i kb).length - 4)
        = m.preBytes.set i (m.preBytes.getD i 0 ^^^ 2 ^ kb) := by
      rw [hlenf, hsplit, Nat.add_sub_cancel, ← hsetlen, List.take_left]
    have hdrop : (flipAt m.encode i kb).drop ((flipAt m.encode i kb).length - 4)
        = leBytes 4 (calculate_checksum m.preBytes) := by
      rw [hlenf, hsplit, Nat.add_sub_cancel, ← hsetlen, List.drop_left]
    have hstored : readLE 4 ((flipAt m.encode i kb).drop ((flipAt m.encode i kb).length - 4))
        = calculate_checksum m.preBytes := by
      rw [hdrop]
      have := readLE_leBytes 4 (calculate_checksum m.preBytes) []
      simpa using this.trans (Nat.mod_eq_of_lt (by omega))
    have hcalc : calculate_checksum ((flipAt m.encode i kb).take
          ((flipAt m.encode i kb).length - 4))
        = calculate_checksum m.preBytes ^^^ 2 ^ kb := by
      rw [htake]
      exact checksum_set _ _ _ hcase
    rw [validate_checksum, if_neg (by omega : ¬ (flipAt m.encode i kb).length < 4)]
    rw [hcalc, hstored]
    exact decide_eq_false (xor_ne_self _ _ hxne)
  · -- flip inside the stored checksum: the stored value changes
    have hge : m.preBytes.length ≤ i := by omega
    set j := i - m.preBytes.length with hj
    have hj4 : j < 4 := by omega
    set chk := leBytes 4 (calculate_checksum m.preBytes) with hchk
    have hchklen : chk.length = 4 := leBytes_length _ _
    have hgd : m.encode.getD i 0 = chk.getD j 0 := by
      rw [Msg.encode, List.getD_append_right _ _ _ _ hge]
    have hsplit : flipAt m.encode i kb
        = m.preBytes ++ chk.set j (chk.getD j 0 ^^^ 2 ^ kb) := by
      rw [flipAt, hgd, Msg.encode, set_append_ge _ _ _ _ hge]
    have hlenf : (flipAt m.encode i kb).length = m.preBytes.length + 4 := by
      simp [flipAt, hel]
    have htake : (flipAt m.encode i kb).take ((flipAt m.encode i kb).length - 4)
        = m.preBytes := by
      rw [hlenf, hsplit, Nat.add_sub_cancel, List.take_left]
    have hdrop : (flipAt m.encode i kb).drop ((flipAt m.encode i kb).length - 4)
        = chk.set j (chk.getD j 0 ^^^ 2 ^ kb) := by
      rw [hlenf, hsplit, Nat.add_sub_cancel, List.drop_left]
    have hne : readLE 4 (chk.set j (chk.getD j 0 ^^^ 2 ^ kb)) ≠ calculate_checksum m.preBytes := by
      intro heq
      have hstored0 : readLE 4 chk = calculate_checksum m.preBytes := by
        have := readLE_leBytes 4 (calculate_checksum m.preBytes) []
        rw [← hchk] at this
        simpa using this.trans (Nat.mod_eq_of_lt (by omega))
      have hjlt : j < chk.length := by omega
      have hdj : chk.getD j 0 < 256 := by
        have hmem : chk.getD j 0 ∈ chk := by
          rw [List.getD_eq_getElem _ _ hjlt]
          exact List.getElem_mem _
        exact leBytes_mem_lt _ _ _ hmem
      have hv : chk.getD j 0 ^^^ 2 ^ kb < 256 := by
        have := Nat.xor_lt_two_pow (n := 8) (by simpa using hdj)
          (by simpa using two_pow_lt_256 kb hk)
        simpa using this
      have heql : chk.set j (chk.getD j 0 ^^^ 2 ^ kb) = chk := by
        apply readLE_inj 4 _ _ (by simp [hchklen]) hchklen
        · intro y hy
          rcases List.mem_or_eq_of_mem_set hy with hmem | hveq
          · exact leBytes_mem_lt _ _ _ hmem
          · omega
        · exact leBytes_mem_lt _ _
        · rw [heq, hstored0]
      have := congrArg (fun l => l.getD j 0) heql
      simp only at this
      rw [getD_set_self _ _ _ hjlt] at this
      exact xor_ne_self _ _ hxne this
    rw [validate_checksum, if_neg (by omega : ¬ (flipAt m.encode i kb).length < 4)]
    rw [htake, hdrop]
    exact decide_eq_false fun heq => hne heq.symm

theorem BinaryParser.try_parse_short (st : BinaryParser) (h : st.buf.length < 16) :
    st.try_parse_message = (false, st) := by
  dsimp only [BinaryParser.try_parse_message]
  rw [if_pos h]

theorem BinaryParser.parse_messages_short (st : BinaryParser) (h : st.buf.length < 16) :
    st.parse_messages = st := by
  unfold BinaryParser.parse_messages
  split
  · rename_i htrue
    rw [st.try_parse_short h] at htrue
    simp at htrue
  · rw [st.try_parse_short h]

/-- A complete buffered message of a known type whose checksum fails:
`checksum_errors` is bumped, the message is removed, no dispatch. -/
theorem BinaryParser.try_parse_badsum (st : BinaryParser)
    (h16 : ¬ st.buf.length < 16)
    (hvalid : ¬ (get_message_size (readLE 2 st.buf) = 0 ∨
        get_message_size (readLE 2 st.buf) > MAX_MESSAGE_SIZE))
    (hlen : st.buf.length = get_message_size (readLE 2 st.buf))
    (hbad : validate_checksum st.buf = false) :
    st.try_parse_message
      = (true, { st with checksum_errors := st.checksum_errors + 1, buf := [] }) := by
  have hcomplete : ¬ st.buf.length < get_message_size (readLE 2 st.buf) := by omega
  have htake : st.buf.take (get_message_size (readLE 2 st.buf)) = st.buf := by
    rw [← hlen, List.take_length]
  have hdrop : st.buf.drop (get_message_size (readLE 2 st.buf)) = [] := by
    rw [← hlen, List.drop_length]
  dsimp only [BinaryParser.try_parse_message]
  rw [if_neg h16, if_neg hvalid, if_neg hcomplete, htake, hdrop]
  dsimp only [BinaryParser.process_message]
  rw [hbad]
  rfl

theorem BinaryParser.parse_messages_badsum (st : BinaryParser)
    (h16 : ¬ st.buf.length < 16)
    (hvalid : ¬ (get_message_size (readLE 2 st.buf) = 0 ∨
        get_message_size (readLE 2 st.buf) > MAX_MESSAGE_SIZE))
    (hlen : st.buf.length = get_message_size (readLE 2 st.buf))
    (hbad : validate_checksum st.buf = false) :
    st.parse_messages
      = { st with checksum_errors := st.checksum_errors + 1, buf := [] } := by
  unfold BinaryParser.parse_messages
  split
  · rw [st.try_parse_badsum h16 hvalid hlen hbad]
    dsimp only
    exact BinaryParser.parse_messages_short _ (by simp)
  · rename_i hfalse
    rw [st.try_parse_badsum h16 hvalid hlen hbad] at hfalse
    simp at hfalse

/-- C4 (amended): flipping any single bit at byte offset `≥ 2` (outside
the `msg_type` field) of a well-formed message and feeding the corrupted
message to a fresh parser increments `checksum_errors` by exactly one,
invokes no handler, and dispatches nothing. -/
theorem c4_flip_one_checksum_error (m : Msg) (i kb : Nat)
    (h2i : 2 ≤ i) (hi : i < m.encode.length) (hk : kb < 8) :
    (BinaryParser.init.parse (flipAt m.encode i kb)).checksum_errors = 1 ∧
    (BinaryParser.init.parse (flipAt m.encode i kb)).events = [] ∧
    (BinaryParser.init.parse (flipAt m.encode i kb)).messages_parsed = 0 := by
  have hsz20 := m.size_pos
  have hsz44 := m.size_le
  have hflen : (flipAt m.encode i kb).length = get_message_size m.typeCode := by
    simp [flipAt, m.encode_length]
  have h1 := BinaryParser.parse_one BinaryParser.init (flipAt m.encode i kb)
    (by omega) (by simp only [BinaryParser.init, List.length_nil, Nat.zero_add, BUFFER_SIZE]; omega)
  have hbufeq : ({ BinaryParser.init with
      buf := BinaryParser.init.buf ++ flipAt m.encode i kb } : BinaryParser).buf
      = flipAt m.encode i kb := by
    simp [BinaryParser.init]
  have htype : readLE 2 (flipAt m.encode i kb) = m.typeCode := by
    rw [flipAt, readLE_set_ge 2 _ i _ h2i]
    have := m.readLE_type []
    simpa using this
  have h2 := BinaryParser.parse_messages_badsum
    { BinaryParser.init with buf := BinaryParser.init.buf ++ flipAt m.encode i kb }
    (by rw [hbufeq, hflen]; omega)
    (by rw [hbufeq, htype, MAX_MESSAGE_SIZE]; omega)
    (by rw [hbufeq, htype, hflen])
    (by rw [hbufeq]; exact validate_flip m i kb h2i hi hk)
  have hst := h1.trans h2
  rw [hst]
  exact ⟨rfl, rfl, rfl⟩

/-- The C4 counterexample input: a well-formed trade message with bit 0 of
byte 0 flipped, turning `msg_type` from `0x01` into `0x00`. -/
def c4BadInput : List Nat := flipAt (Msg.trade 1 0 0 0 0).encode 0 0

/-- C4 as stated is false: for this single-bit flip (bit 0 of the
`msg_type` byte) the parser takes the malformed/resync path, so
`checksum_errors` is not incremented at all. -/
theorem c4_counterexample_type_bit_flip :
    ¬ ((BinaryParser.init.parse c4BadInput).checksum_errors = 1) := by
  have h1 := BinaryParser.parse_one BinaryParser.init c4BadInput (by decide) (by decide)
  have h2 := BinaryParser.parse_messages_garbage
    { BinaryParser.init with buf := BinaryParser.init.buf ++ c4BadInput }
    (by decide) (by decide)
  have hst := h1.trans h2
  rw [hst]
  decide

theorem c4_flip_one_checksum_error_witness :
    2 ≤ 2 ∧ 2 < (Msg.heartbeat 7 0 0).encode.length ∧ 0 < 8 ∧
    (BinaryParser.init.parse (flipAt (Msg.heartbeat 7 0 0).encode 2 0)).checksum_errors = 1 ∧
    (BinaryParser.init.parse (flipAt (Msg.heartbeat 7 0 0).encode 2 0)).events = [] :=
  ⟨by decide, by decide, by decide,
    (c4_flip_one_checksum_error (Msg.heartbeat 7 0 0) 2 0 (by decide) (by decide) (by decide)).1,
    (c4_flip_one_checksum_error (Msg.heartbeat 7 0 0) 2 0 (by decide) (by decide) (by decide)).2.1⟩

/-! ## Symbol cache seqlock (`src/common/cache.cpp`)

One symbol's `MarketState` under a sequentially consistent interleaving:
the single writer performs `update_quote` calls, each consisting of eight
atomic steps in the program order of cache.cpp:70-80 (store `seq+1`; write
`best_bid`, `bid_quantity`, `best_ask`, `ask_quantity`,
`last_update_time`, `update_count`; store `seq+2`).  `mem us s t` is the
memory after the writer has executed its first `t` atomic steps.  A
reader's loads happen at monotonically increasing global times.  Prices
are exact rationals; `last_update_time` is the clock value the update
observes. -/

structure QuoteArgs : Type where
  bid_price : ℚ
  bid_qty : Nat
  ask_price : ℚ
  ask_qty : Nat
  now : Nat
  deriving DecidableEq

structure MarketState : Type where
  sequence : Nat
  best_bid : ℚ
  best_ask : ℚ
  bid_quantity : Nat
  ask_quantity : Nat
  last_traded_price : ℚ
  last_traded_quantity : Nat
  last_update_time : Nat
  update_count : Nat
  deriving DecidableEq

/-- `MarketState()` (cache.h:23-27): everything zero. -/
def MarketState.init : MarketState :=
  ⟨0, 0, 0, 0, 0, 0, 0, 0, 0⟩

/-- `MarketSnapshot` (cache.h:31-40): all user-visible fields by value. -/
structure MarketSnapshot : Type where
  best_bid : ℚ
  best_ask : ℚ
  bid_quantity : Nat
  ask_quantity : Nat
  last_traded_price : ℚ
  last_traded_quantity : Nat
  last_update_time : Nat
  update_count : Nat
  deriving DecidableEq

/-- The complete effect of `SymbolCache::update_quote` (cache.cpp:64-81)
on one symbol's state: sequence `+2`, both sides written, timestamp and
update count bumped. -/
def update_quote (a : QuoteArgs) (s : MarketState) : MarketState :=
  { s with sequence := s.sequence + 2,
           best_bid := a.bid_price, bid_quantity := a.bid_qty,
           best_ask := a.ask_price, ask_quantity := a.ask_qty,
           last_update_time := a.now,
           update_count := s.update_count + 1 }

/-- The state after the first `r` atomic steps of one `update_quote`, in
the store order of cache.cpp:71-80. -/
def quoteSub (a : QuoteArgs) (s : MarketState) : Nat → MarketState
  | 0 => s
  | 1 => { s with sequence := s.sequence + 1 }
  | 2 => { s with sequence := s.sequence + 1, best_bid := a.bid_price }
  | 3 => { s with sequence := s.sequence + 1, best_bid := a.bid_price,
                  bid_quantity := a.bid_qty }
  | 4 => { s with sequence := s.sequence + 1, best_bid := a.bid_price,
                  bid_quantity := a.bid_qty, best_ask := a.ask_price }
  | 5 => { s with sequence := s.sequence + 1, best_bid := a.bid_price,
                  bid_quantity := a.bid_qty, best_ask := a.ask_price,
                  ask_quantity := a.ask_qty }
  | 6 => { s with sequence := s.sequence + 1, best_bid := a.bid_price,
                  bid_quantity := a.bid_qty, best_ask := a.ask_price,
                  ask_quantity := a.ask_qty, last_update_time := a.now }
  | 7 => { s with sequence := s.sequence + 1, best_bid := a.bid_price,
                  bid_quantity := a.bid_qty, best_ask := a.ask_price,
                  ask_quantity := a.ask_qty, last_update_time := a.now,
                  update_count := s.update_count + 1 }
  | _ + 8 => update_quote a s

/-- The shared memory after the writer has executed `t` atomic steps of
the update run `us`, starting from state `s`. -/
def mem : List QuoteArgs → MarketState → Nat → MarketState
  | [], s, _ => s
  | a :: rest, s, t => if t < 8 then quoteSub a s t else mem rest (update_quote a s) (t - 8)

/-- The state after the first `j` updates have fully completed. -/
def writerState (us : List QuoteArgs) (s : MarketState) : MarketState :=
  us.foldl (fun s a => update_quote a s) s

def toSnapshot (s : MarketState) : MarketSnapshot :=
  ⟨s.best_bid, s.best_ask, s.bid_quantity, s.ask_quantity,
   s.last_traded_price, s.last_traded_quantity, s.last_update_time, s.update_count⟩

/-- One iteration of the `get_snapshot` read protocol (cache.cpp:100-108):
the eight field loads at times `t1 ≤ … ≤ t8`, in program order. -/
def get_snapshot_reads (us : List QuoteArgs) (t1 t2 t3 t4 t5 t6 t7 t8 : Nat) :
    MarketSnapshot :=
  { best_bid := (mem us MarketState.init t1).best_bid,
    best_ask := (mem us MarketState.init t2).best_ask,
    bid_quantity := (mem us MarketState.init t3).bid_quantity,
    ask_quantity := (mem us MarketState.init t4).ask_quantity,
    last_traded_price := (mem us MarketState.init t5).last_traded_price,
    last_traded_quantity := (mem us MarketState.init t6).last_traded_quantity,
    last_update_time := (mem us MarketState.init t7).last_update_time,
    update_count := (mem us MarketState.init t8).update_count }

/-- The writer pattern of the claim: `update_quote(id, k, k, k + 0.5, k)`. -/
def patternArgs (p : Nat × Nat) : QuoteArgs :=
  ⟨(p.1 : ℚ), p.1, (p.1 : ℚ) + 1 / 2, p.1, p.2⟩

theorem mem_ge (us : List QuoteArgs) (s : MarketState) (t : Nat)
    (h : 8 * us.length ≤ t) : mem us s t = writerState us s := by
  induction us generalizing s t with
  | nil => rfl
  | cons a rest ih =>
    simp only [List.length_cons] at h
    rw [mem, if_neg (by omega)]
    rw [ih _ _ (by omega)]
    rfl

theorem mem_mul8 (us : List QuoteArgs) (s : MarketState) (q : Nat) :
    mem us s (8 * q) = writerState (us.take q) s := by
  induction us generalizing s q with
  | nil => cases q <;> rfl
  | cons a rest ih =>
    cases q with
    | zero => rfl
    | succ q' =>
      have h8 : ¬ 8 * (q' + 1) < 8 := by omega
      have harith : 8 * (q' + 1) - 8 = 8 * q' := by omega
      rw [mem, if_neg h8, harith, ih]
      rfl

theorem init_sequence : MarketState.init.sequence = 0 := rfl

theorem mem_sequence (us : List QuoteArgs) (s : MarketState) (t : Nat) :
    (mem us s t).sequence
      = if 8 * us.length ≤ t then s.sequence + 2 * us.length
        else s.sequence + 2 * (t / 8) + (if t % 8 = 0 then 0 else 1) := by
  induction us generalizing s t with
  | nil => simp [mem]
  | cons a rest ih =>
    rw [mem]
    by_cases ht : t < 8
    · rw [if_pos ht]
      have hL : ¬ 8 * (a :: rest).length ≤ t := by
        simp only [List.length_cons]
        omega
      rw [if_neg hL]
      interval_cases t <;> simp [quoteSub]
    · rw [if_neg ht, ih]
      simp only [update_quote, List.length_cons]
      by_cases hL : 8 * rest.length ≤ t - 8
      · rw [if_pos hL, if_pos (show 8 * (rest.length + 1) ≤ t by omega)]
        omega
      · rw [if_neg hL, if_neg (show ¬ 8 * (rest.length + 1) ≤ t by omega)]
        have e1 : (t - 8) / 8 = t / 8 - 1 := by omega
        have e2 : (t - 8) % 8 = t % 8 := by omega
        rw [e1, e2]
        have h18 : 1 ≤ t / 8 := by omega
        split <;> omega

/-- The seqlock exit condition pins the whole read window: if the version
was even at `t0` and unchanged at `t9`, no writer step ran in between, so
every intermediate load sees exactly the memory of time `t0`. -/
theorem mem_window (us : List QuoteArgs) (t0 t9 : Nat) (h09 : t0 ≤ t9)
    (heven : Even (mem us MarketState.init t0).sequence)
    (hstable : (mem us MarketState.init t9).sequence
      = (mem us MarketState.init t0).sequence) :
    ∀ t'', t0 ≤ t'' → t'' ≤ t9 →
      mem us MarketState.init t'' = mem us MarketState.init t0 := by
  intro t'' h0 h9
  have hs0 := mem_sequence us MarketState.init t0
  have hs9 := mem_sequence us MarketState.init t9
  rw [init_sequence] at hs0 hs9
  rw [Nat.even_iff] at heven
  by_cases hL0 : 8 * us.length ≤ t0
  · rw [mem_ge us _ _ (by omega), mem_ge us _ _ hL0]
  · rw [if_neg hL0, Nat.zero_add] at hs0
    have hm0 : t0 % 8 = 0 := by
      by_cases hm : t0 % 8 = 0
      · exact hm
      · rw [if_neg hm] at hs0
        rw [hs0] at heven
        omega
    rw [hm0, if_pos rfl, Nat.add_zero] at hs0
    by_cases hL9 : 8 * us.length ≤ t9
    · exfalso
      rw [if_pos hL9, Nat.zero_add] at hs9
      rw [hs9, hs0] at hstable
      omega
    · rw [if_neg hL9, Nat.zero_add] at hs9
      have hm9 : t9 % 8 = 0 := by
        by_cases hm : t9 % 8 = 0
        · exact hm
        · rw [if_neg hm] at hs9
          rw [hs9, hs0] at hstable
          omega
      rw [hm9, if_pos rfl, Nat.add_zero] at hs9
      have hq : t9 / 8 = t0 / 8 := by
        rw [hs9, hs0] at hstable
        omega
      have ht9 : t9 = t0 := by omega
      have ht'' : t'' = t0 := by omega
      rw [ht'']

theorem writerState_qty (us : List QuoteArgs)
    (h : ∀ a ∈ us, a.bid_qty = a.ask_qty) :
    ∀ s : MarketState, s.bid_quantity = s.ask_quantity →
      (writerState us s).bid_quantity = (writerState us s).ask_quantity := by
  induction us with
  | nil => intro s hs; exact hs
  | cons a rest ih =>
    intro s hs
    show (writerState rest (update_quote a s)).bid_quantity
        = (writerState rest (update_quote a s)).ask_quantity
    exact ih (fun b hb => h b (by simp [hb])) _ (h a (by simp))

/-- C1: under any interleaving of the single writer (performing
`update_quote` calls `us`) with a reader (additional concurrent readers
never write, so each reader is covered independently), every snapshot
whose seqlock protocol exits — version even at the first load (after the
odd-spin, cache.cpp:96-98), all eight field loads in program order, and
the version unchanged at the re-check (cache.cpp:111-112) — equals the
state after some whole number of completed `update_quote` calls (no torn
reads); and when the writer only performs
`update_quote(k, k, k + 0.5, k)` the snapshot has
`bid_quantity = ask_quantity`. -/
theorem c1_seqlock_no_torn_reads (us : List QuoteArgs)
    (t0 t1 t2 t3 t4 t5 t6 t7 t8 t9 : Nat)
    (h01 : t0 ≤ t1) (h12 : t1 ≤ t2) (h23 : t2 ≤ t3) (h34 : t3 ≤ t4)
    (h45 : t4 ≤ t5) (h56 : t5 ≤ t6) (h67 : t6 ≤ t7) (h78 : t7 ≤ t8)
    (h89 : t8 ≤ t9)
    (heven : Even (mem us MarketState.init t0).sequence)
    (hstable : (mem us MarketState.init t9).sequence
      = (mem us MarketState.init t0).sequence) :
    (∃ j ≤ us.length,
        get_snapshot_reads us t1 t2 t3 t4 t5 t6 t7 t8
          = toSnapshot (writerState (us.take j) MarketState.init)) ∧
    ((∃ ks : List (Nat × Nat), us = ks.map patternArgs) →
        (get_snapshot_reads us t1 t2 t3 t4 t5 t6 t7 t8).bid_quantity
          = (get_snapshot_reads us t1 t2 t3 t4 t5 t6 t7 t8).ask_quantity) := by
  have hwin := mem_window us t0 t9 (by omega) heven hstable
  have e1 := hwin t1 (by omega) (by omega)
  have e2 := hwin t2 (by omega) (by omega)
  have e3 := hwin t3 (by omega) (by omega)
  have e4 := hwin t4 (by omega) (by omega)
  have e5 := hwin t5 (by omega) (by omega)
  have e6 := hwin t6 (by omega) (by omega)
  have e7 := hwin t7 (by omega) (by omega)
  have e8 := hwin t8 (by omega) (by omega)
  have hsnap : get_snapshot_reads us t1 t2 t3 t4 t5 t6 t7 t8
      = toSnapshot (mem us MarketState.init t0) := by
    rw [get_snapshot_reads, e1, e2, e3, e4, e5, e6, e7, e8]
    rfl
  have hj : ∃ j ≤ us.length,
      mem us MarketState.init t0 = writerState (us.take j) MarketState.init := by
    by_cases hL : 8 * us.length ≤ t0
    · refine ⟨us.length, le_rfl, ?_⟩
      rw [mem_ge us _ _ hL, List.take_length]
    · refine ⟨t0 / 8, by omega, ?_⟩
      have hm0 : t0 % 8 = 0 := by
        have hs0 := mem_sequence us MarketState.init t0
        rw [init_sequence, if_neg hL, Nat.zero_add] at hs0
        rw [Nat.even_iff] at heven
        by_cases hm : t0 % 8 = 0
        · exact hm
        · rw [if_neg hm] at hs0
          rw [hs0] at heven
          omega
      have ht0 : t0 = 8 * (t0 / 8) := by omega
      have hmm := mem_mul8 us MarketState.init (t0 / 8)
      rw [← ht0] at hmm
      exact hmm
  obtain ⟨j, hjle, hjeq⟩ := hj
  constructor
  · exact ⟨j, hjle, by rw [hsnap, hjeq]⟩
  · rintro ⟨ks, rfl⟩
    rw [hsnap, hjeq]
    have hqty : ∀ a ∈ (ks.map patternArgs).take j, a.bid_qty = a.ask_qty := by
      intro a ha
      have ham : a ∈ ks.map patternArgs := List.mem_of_mem_take ha
      obtain ⟨p, _, rfl⟩ := List.mem_map.mp ham
      rfl
    exact writerState_qty _ hqty MarketState.init rfl

def c1WitnessArgs : List QuoteArgs := [patternArgs (5, 77)]

theorem c1_seqlock_no_torn_reads_witness :
    Even (mem c1WitnessArgs MarketState.init 8).sequence ∧
    (mem c1WitnessArgs MarketState.init 8).sequence
      = (mem c1WitnessArgs MarketState.init 8).sequence ∧
    ((∃ j ≤ c1WitnessArgs.length,
        get_snapshot_reads c1WitnessArgs 8 8 8 8 8 8 8 8
          = toSnapshot (writerState (c1WitnessArgs.take j) MarketState.init)) ∧
      ((∃ ks : List (Nat × Nat), c1WitnessArgs = ks.map patternArgs) →
        (get_snapshot_reads c1WitnessArgs 8 8 8 8 8 8 8 8).bid_quantity
          = (get_snapshot_reads c1WitnessArgs 8 8 8 8 8 8 8 8).ask_quantity)) :=
  ⟨by decide, rfl,
    c1_seqlock_no_torn_reads c1WitnessArgs 8 8 8 8 8 8 8 8 8 8
      le_rfl le_rfl le_rfl le_rfl le_rfl le_rfl le_rfl le_rfl le_rfl
      (by decide) rfl⟩

/-! ## Subscription frame (client `socket.cpp:132-152`, server
`exchange_simulator.cpp:484-529`) -/

/-- `MarketDataSocket::send_subscription` frame bytes: command `0xFF`,
`count` as little-endian `uint16_t` (`static_cast<uint16_t>(size)`), then
each id as little-endian `uint16_t`. -/
def send_subscription_bytes (symbol_ids : List Nat) : List Nat :=
  0xFF :: (leBytes 2 symbol_ids.length
    ++ (symbol_ids.map (fun id => leBytes 2 id)).flatten)

/-- `ExchangeSimulator::handle_subscription_message`: rejects frames that
are too short, have a wrong command byte, or whose declared length exceeds
the received bytes; otherwise decodes `count` ids and keeps exactly those
`< num_symbols_`, replacing the client's set.  `none` models the
early-return (no change), `some s` the replacement set. -/
def handle_subscription_message (num_symbols : Nat) (data : List Nat) :
    Option (Finset Nat) :=
  if data.length < 3 then none
  else
    let command := data.getD 0 0
    let count := data.getD 1 0 + 256 * data.getD 2 0
    if command ≠ 0xFF then none
    else if data.length < 3 + count * 2 then none
    else
      some ((List.range count).foldl (fun s i =>
        let id := data.getD (3 + i * 2) 0 + 256 * data.getD (3 + i * 2 + 1) 0
        if id < num_symbols then insert id s else s) ∅)

theorem flatten_le2_length (ids : List Nat) :
    ((ids.map (fun id => leBytes 2 id)).flatten).length = 2 * ids.length := by
  induction ids with
  | nil => rfl
  | cons id rest ih =>
    simp only [List.map_cons, List.flatten_cons, List.length_append, ih,
      leBytes_length, List.length_cons]
    omega

theorem send_subscription_length (ids : List Nat) :
    (send_subscription_bytes ids).length = 3 + 2 * ids.length := by
  simp only [send_subscription_bytes, List.length_cons, List.length_append,
    leBytes_length, flatten_le2_length]
  omega

theorem flatten_le2_getD (ids : List Nat) (hids : ∀ id ∈ ids, id < 2 ^ 16) :
    ∀ i, i < ids.length →
      ((ids.map (fun id => leBytes 2 id)).flatten).getD (i * 2) 0
          + 256 * ((ids.map (fun id => leBytes 2 id)).flatten).getD (i * 2 + 1) 0
        = ids.getD i 0 := by
  induction ids with
  | nil => intro i hi; simp at hi
  | cons id rest ih =>
    intro i hi
    have hflat : ((id :: rest).map (fun id => leBytes 2 id)).flatten
        = id % 256 :: id / 256 % 256 :: (rest.map (fun id => leBytes 2 id)).flatten := rfl
    cases i with
    | zero =>
      have hid : id < 2 ^ 16 := hids id (by simp)
      rw [hflat]
      show id % 256 + 256 * (id / 256 % 256) = id
      have h1 : id % (256 * 256) = id % 256 + 256 * (id / 256 % 256) := Nat.mod_mul
      rw [← h1]
      exact Nat.mod_eq_of_lt (by norm_num at hid ⊢; exact hid)
    | succ i' =>
      have e1 : ∀ (T : List Nat) (n : Nat),
          (id % 256 :: id / 256 % 256 :: T).getD (n + 2) 0 = T.getD n 0 :=
        fun T n => rfl
      rw [hflat, show (i' + 1) * 2 = i' * 2 + 2 by omega,
        show i' * 2 + 2 + 1 = i' * 2 + 1 + 2 by omega, e1, e1]
      show ((rest.map (fun id => leBytes 2 id)).flatten).getD (i' * 2) 0
          + 256 * ((rest.map (fun id => leBytes 2 id)).flatten).getD (i' * 2 + 1) 0
        = rest.getD i' 0
      exact ih (fun y hy => hids y (by simp [hy])) i' (by simpa using hi)

theorem sub_fold_mem (num_symbols : Nat) (data : List Nat) (ids : List Nat)
    (hdec : ∀ i < ids.length,
      data.getD (3 + i * 2) 0 + 256 * data.getD (3 + i * 2 + 1) 0 = ids.getD i 0) :
    ∀ n, n ≤ ids.length → ∀ (acc : Finset Nat) (x : Nat),
      (x ∈ (List.range n).foldl (fun s i =>
          let id := data.getD (3 + i * 2) 0 + 256 * data.getD (3 + i * 2 + 1) 0
          if id < num_symbols then insert id s else s) acc
        ↔ x ∈ acc ∨ ∃ i, i < n ∧ ids.getD i 0 = x ∧ x < num_symbols) := by
  intro n
  induction n with
  | zero =>
    intro _ acc x
    simp
  | succ n ihn =>
    intro hn acc x
    rw [List.range_succ, List.foldl_append, List.foldl_cons, List.foldl_nil]
    dsimp only
    rw [hdec n (by omega)]
    by_cases hlt : ids.getD n 0 < num_symbols
    · rw [if_pos hlt, Finset.mem_insert, ihn (by omega) acc x]
      constructor
      · rintro (rfl | h | ⟨i, hi, hx, hxn⟩)
        · exact Or.inr ⟨n, by omega, rfl, hlt⟩
        · exact Or.inl h
        · exact Or.inr ⟨i, by omega, hx, hxn⟩
      · rintro (h | ⟨i, hi, hx, hxn⟩)
        · exact Or.inr (Or.inl h)
        · by_cases hin : i = n
          · subst hin
            exact Or.inl hx.symm
          · exact Or.inr (Or.inr ⟨i, by omega, hx, hxn⟩)
    · rw [if_neg hlt, ihn (by omega) acc x]
      constructor
      · rintro (h | ⟨i, hi, hx, hxn⟩)
        · exact Or.inl h
        · exact Or.inr ⟨i, by omega, hx, hxn⟩
      · rintro (h | ⟨i, hi, hx, hxn⟩)
        · exact Or.inl h
        · by_cases hin : i = n
          · subst hin
            exact absurd (hx ▸ hxn) hlt
          · exact Or.inr ⟨i, by omega, hx, hxn⟩

/-- C3: the subscription frame is `0xFF`, the count as little-endian
`uint16_t`, then each id as little-endian `uint16_t` (3 + 2·count bytes);
parsing that frame on the server replaces the client's subscription set
with exactly the ids of the list that are `< num_symbols`, so subscription
sets only contain valid symbol ids.  The `uint16_t` bounds of the C++
types (`std::vector<uint16_t>` ids, `uint16_t` count) appear as
hypotheses. -/
theorem c3_subscription_roundtrip (num_symbols : Nat) (ids : List Nat)
    (hlen : ids.length < 2 ^ 16) (hids : ∀ id ∈ ids, id < 2 ^ 16) :
    (send_subscription_bytes ids).length = 3 + 2 * ids.length ∧
    handle_subscription_message num_symbols (send_subscription_bytes ids)
      = some ((ids.filter (fun id => id < num_symbols)).toFinset) ∧
    ∀ x ∈ (ids.filter (fun id => id < num_symbols)).toFinset, x < num_symbols := by
  have hframe : send_subscription_bytes ids
      = 255 :: ids.length % 256 :: ids.length / 256 % 256
        :: (ids.map (fun id => leBytes 2 id)).flatten := rfl
  have hdec : ∀ i < ids.length,
      (send_subscription_bytes ids).getD (3 + i * 2) 0
        + 256 * (send_subscription_bytes ids).getD (3 + i * 2 + 1) 0 = ids.getD i 0 := by
    intro i hi
    have e3 : ∀ (T : List Nat) (n : Nat),
        (255 :: ids.length % 256 :: ids.length / 256 % 256 :: T).getD (n + 3) 0
          = T.getD n 0 := fun T n => rfl
    rw [hframe, show 3 + i * 2 = i * 2 + 3 by omega,
      show i * 2 + 3 + 1 = i * 2 + 1 + 3 by omega, e3, e3]
    exact flatten_le2_getD ids hids i hi
  refine ⟨send_subscription_length ids, ?_, ?_⟩
  · have hcmd : (send_subscription_bytes ids).getD 0 0 = 255 := by
      rw [hframe]
      rfl
    have hcount : (send_subscription_bytes ids).getD 1 0
        + 256 * (send_subscription_bytes ids).getD 2 0 = ids.length := by
      rw [hframe]
      show ids.length % 256 + 256 * (ids.length / 256 % 256) = ids.length
      have h1 : ids.length % (256 * 256)
          = ids.length % 256 + 256 * (ids.length / 256 % 256) := Nat.mod_mul
      rw [← h1]
      exact Nat.mod_eq_of_lt (by norm_num at hlen ⊢; exact hlen)
    dsimp only [handle_subscription_message]
    rw [hcount, hcmd,
      if_neg (by rw [send_subscription_length]; omega),
      if_neg (by simp),
      if_neg (by rw [send_subscription_length]; omega)]
    congr 1
    apply Finset.ext
    intro x
    rw [sub_fold_mem num_symbols _ ids hdec ids.length le_rfl ∅ x]
    simp only [Finset.not_mem_empty, false_or, List.mem_toFinset, List.mem_filter,
      decide_eq_true_eq]
    constructor
    · rintro ⟨i, hi, hx, hxn⟩
      refine ⟨?_, hxn⟩
      rw [← hx, List.getD_eq_getElem _ _ hi]
      exact List.getElem_mem _
    · rintro ⟨hmem, hxn⟩
      obtain ⟨i, hi, hx⟩ := List.mem_iff_getElem.mp hmem
      exact ⟨i, hi, by rw [List.getD_eq_getElem _ _ hi, hx], hxn⟩
  · intro x hx
    simp only [List.mem_toFinset, List.mem_filter, decide_eq_true_eq] at hx
    exact hx.2

def c3WitnessIds : List Nat := [0, 2, 5]

theorem c3_subscription_roundtrip_witness :
    c3WitnessIds.length < 2 ^ 16 ∧ (∀ id ∈ c3WitnessIds, id < 2 ^ 16) ∧
    ((send_subscription_bytes c3WitnessIds).length = 3 + 2 * c3WitnessIds.length ∧
      handle_subscription_message 3 (send_subscription_bytes c3WitnessIds)
        = some ((c3WitnessIds.filter (fun id => id < 3)).toFinset) ∧
      ∀ x ∈ (c3WitnessIds.filter (fun id => id < 3)).toFinset, x < 3) :=
  ⟨by decide, by decide,
    c3_subscription_roundtrip 3 c3WitnessIds (by decide) (by decide)⟩

/-! ## Latency tracker (`src/common/latency_tracker.cpp`) -/

/-- `next_power_of_2` (latency_tracker.cpp:10-20): bit-smearing on a
64-bit `size_t`; the final `+ 1` wraps like the machine word. -/
def next_power_of_2 (n : Nat) : Nat :=
  if n = 0 then 1
  else
    let x0 := n - 1
    let x1 := x0 ||| x0 >>> 1
    let x2 := x1 ||| x1 >>> 2
    let x3 := x2 ||| x2 >>> 4
    let x4 := x3 ||| x3 >>> 8
    let x5 := x4 ||| x4 >>> 16
    let x6 := x5 ||| x5 >>> 32
    (x6 + 1) % 2 ^ 64

def NUM_BUCKETS : Nat := 1000

def MAX_LATENCY_NS : Nat := 10000000

structure LatencyStats : Type where
  min : Nat
  max : Nat
  mean : Nat
  p50 : Nat
  p95 : Nat
  p99 : Nat
  p999 : Nat
  sample_count : Nat
  deriving DecidableEq

/-- `LatencyStats stats{}` — value initialization: all zeros. -/
def LatencyStats.zero : LatencyStats := ⟨0, 0, 0, 0, 0, 0, 0, 0⟩

/-- `LatencyTracker` state (latency_tracker.h:49-56): `samples` models the
`max_samples_`-sized vector (value-initialized to zero), `histogram` the
1000 atomic buckets (zeroed in the constructor). -/
structure LatencyTracker : Type where
  max_samples : Nat
  index_mask : Nat
  write_idx : Nat
  samples : Nat → Nat
  histogram : Nat → Nat

/-- The constructor (latency_tracker.cpp:22-32). -/
def LatencyTracker.new (requested : Nat) : LatencyTracker :=
  { max_samples := next_power_of_2 requested,
    index_mask := next_power_of_2 requested - 1,
    write_idx := 0,
    samples := fun _ => 0,
    histogram := fun _ => 0 }

/-- `record` (latency_tracker.h:30-34): `fetch_add` returns the old index;
the sample lands at `old & index_mask_`.  Only the write cursor and the
addressed slot change. -/
def LatencyTracker.record (st : LatencyTracker) (latency_ns : Nat) : LatencyTracker :=
  let idx := st.write_idx &&& st.index_mask
  { st with write_idx := (st.write_idx + 1) % 2 ^ 64,
            samples := fun j => if j = idx then latency_ns % 2 ^ 64 else st.samples j }

/-- `reset` (latency_tracker.cpp:77-82). -/
def LatencyTracker.reset (st : LatencyTracker) : LatencyTracker :=
  { st with write_idx := 0, histogram := fun _ => 0 }

/-- `get_stats` (latency_tracker.cpp:37-75).  The C++ `sum` is a
`uint64_t` and wraps, hence the `% 2^64` per addition.  The percentile
index `static_cast<size_t>(num_samples * p)` is modelled as the exact
`⌊n·p⌋`; `double` rounding can shift it by one slot for some `n` (e.g.
`p999` at `n = 1000`), but no property below depends on these fields for
`n > 0`. -/
def LatencyTracker.get_stats (st : LatencyTracker) : LatencyStats :=
  let num_samples := min st.write_idx st.max_samples
  if num_samples = 0 then LatencyStats.zero
  else
    let vals := (List.range num_samples).map st.samples
    let min_val := vals.foldl Nat.min (2 ^ 64 - 1)
    let max_val := vals.foldl Nat.max 0
    let sum := vals.foldl (fun s v => (s + v) % 2 ^ 64) 0
    let sorted := vals.mergeSort (fun a b => a ≤ b)
    { min := min_val, max := max_val, mean := sum / num_samples,
      p50 := sorted.getD (num_samples * 50 / 100) 0,
      p95 := sorted.getD (num_samples * 95 / 100) 0,
      p99 := sorted.getD (num_samples * 99 / 100) 0,
      p999 := sorted.getD (num_samples * 999 / 1000) 0,
      sample_count := num_samples }

/-- `export_to_csv` (latency_tracker.cpp:84-99), abstracting the file
system: given whether the output file opens, returns the C++ return value
and the data rows written after the `"Bucket,Count"` header (one
`(bucket, count)` row per bucket with a positive count). -/
def LatencyTracker.export_to_csv (st : LatencyTracker) (file_opens : Bool) :
    Bool × List (Nat × Nat) :=
  if !file_opens then (false, [])
  else (true,
    ((List.range NUM_BUCKETS).filter (fun i => 0 < st.histogram i)).map
      (fun i => (i, st.histogram i)))

def recordAll (st : LatencyTracker) (vs : List Nat) : LatencyTracker :=
  vs.foldl LatencyTracker.record st

theorem recordAll_max_samples (vs : List Nat) :
    ∀ st : LatencyTracker, (recordAll st vs).max_samples = st.max_samples := by
  induction vs with
  | nil => intro st; rfl
  | cons v rest ih => intro st; exact ih _

theorem recordAll_write_idx (vs : List Nat) :
    ∀ st : LatencyTracker, st.write_idx + vs.length < 2 ^ 64 →
      (recordAll st vs).write_idx = st.write_idx + vs.length := by
  induction vs with
  | nil => intro st _; rfl
  | cons v rest ih =>
    intro st h
    simp only [List.length_cons] at h
    show (recordAll (st.record v) rest).write_idx = st.write_idx + (rest.length + 1)
    rw [ih _ (by simp only [LatencyTracker.record]; omega)]
    simp only [LatencyTracker.record]
    omega

theorem foldl_min_le_init (l : List Nat) : ∀ a : Nat, l.foldl Nat.min a ≤ a := by
  induction l with
  | nil => intro a; exact le_rfl
  | cons x xs ih =>
    intro a
    exact le_trans (ih (Nat.min a x)) (Nat.min_le_left a x)

theorem foldl_min_le_mem (l : List Nat) : ∀ (a : Nat), ∀ b ∈ l, l.foldl Nat.min a ≤ b := by
  induction l with
  | nil => intro a b hb; simp at hb
  | cons x xs ih =>
    intro a b hb
    rcases List.mem_cons.mp hb with rfl | hb
    · exact le_trans (foldl_min_le_init xs (Nat.min a b)) (Nat.min_le_right a b)
    · exact ih _ b hb

theorem foldl_max_ge_init (l : List Nat) : ∀ a : Nat, a ≤ l.foldl Nat.max a := by
  induction l with
  | nil => intro a; exact le_rfl
  | cons x xs ih =>
    intro a
    exact le_trans (Nat.le_max_left a x) (ih (Nat.max a x))

theorem foldl_max_ge_mem (l : List Nat) : ∀ (a : Nat), ∀ b ∈ l, b ≤ l.foldl Nat.max a := by
  induction l with
  | nil => intro a b hb; simp at hb
  | cons x xs ih =>
    intro a b hb
    rcases List.mem_cons.mp hb with rfl | hb
    · exact le_trans (Nat.le_max_right a b) (foldl_max_ge_init xs (Nat.max a b))
    · exact ih _ b hb

theorem foldl_wrap_sum (l : List Nat) : ∀ acc : Nat, acc + l.sum < 2 ^ 64 →
    l.foldl (fun s v => (s + v) % 2 ^ 64) acc = acc + l.sum := by
  induction l with
  | nil => intro acc _; simp
  | cons x xs ih =>
    intro acc h
    simp only [List.sum_cons] at h ⊢
    show xs.foldl (fun s v => (s + v) % 2 ^ 64) ((acc + x) % 2 ^ 64) = acc + (x + xs.sum)
    rw [Nat.mod_eq_of_lt (by omega)]
    rw [ih (acc + x) (by omega)]
    omega

theorem mul_length_le_sum (l : List Nat) (a : Nat) (h : ∀ b ∈ l, a ≤ b) :
    a * l.length ≤ l.sum := by
  induction l with
  | nil => simp
  | cons x xs ih =>
    simp only [List.length_cons, List.sum_cons, Nat.mul_succ]
    have h1 := h x (by simp)
    have h2 := ih (fun b hb => h b (by simp [hb]))
    omega

theorem sum_le_mul_length (l : List Nat) (a : Nat) (h : ∀ b ∈ l, b ≤ a) :
    l.sum ≤ a * l.length := by
  induction l with
  | nil => simp
  | cons x xs ih =>
    simp only [List.length_cons, List.sum_cons, Nat.mul_succ]
    have h1 := h x (by simp)
    have h2 := ih (fun b hb => h b (by simp [hb]))
    omega

theorem get_stats_bounds (st : LatencyTracker)
    (hn : ¬ min st.write_idx st.max_samples = 0)
    (hsum : ((List.range (min st.write_idx st.max_samples)).map st.samples).sum < 2 ^ 64) :
    st.get_stats.min ≤ st.get_stats.mean ∧ st.get_stats.mean ≤ st.get_stats.max := by
  dsimp only [LatencyTracker.get_stats]
  rw [if_neg hn]
  set n := min st.write_idx st.max_samples with hn0
  set vals := (List.range n).map st.samples with hvals
  have hlen : vals.length = n := by
    rw [hvals, List.length_map, List.length_range]
  have hwrap : vals.foldl (fun s v => (s + v) % 2 ^ 64) 0 = vals.sum :=
    (foldl_wrap_sum vals 0 (by omega)).trans (Nat.zero_add _)
  have hpos : 0 < n := by omega
  constructor
  · show vals.foldl Nat.min (2 ^ 64 - 1)
        ≤ vals.foldl (fun s v => (s + v) % 2 ^ 64) 0 / n
    rw [hwrap, Nat.le_div_iff_mul_le hpos]
    have := mul_length_le_sum vals (vals.foldl Nat.min (2 ^ 64 - 1))
      (foldl_min_le_mem vals (2 ^ 64 - 1))
    rwa [hlen] at this
  · show vals.foldl (fun s v => (s + v) % 2 ^ 64) 0 / n ≤ vals.foldl Nat.max 0
    rw [hwrap]
    have hle : vals.sum ≤ vals.foldl Nat.max 0 * n := by
      have := sum_le_mul_length vals (vals.foldl Nat.max 0)
        (foldl_max_ge_mem vals 0)
      rwa [hlen] at this
    calc vals.sum / n ≤ (vals.foldl Nat.max 0 * n) / n := Nat.div_le_div_right hle
      _ = vals.foldl Nat.max 0 := Nat.mul_div_cancel _ hpos

/-- C7 (amended): after exactly `k = vs.length` sequential `record` calls,
`get_stats` reports `sample_count = min(k, capacity)` — never above the
capacity — and all-zero stats for `k = 0`; `min ≤ mean ≤ max` holds over
the reported samples provided their `uint64_t` sum does not wrap (the
original claim omits this proviso and is refuted by the counterexample). -/
theorem c7_latency_ring_stats (requested : Nat) (vs : List Nat)
    (hk : vs.length < 2 ^ 64)
    (hsum : ((List.range (min vs.length (next_power_of_2 requested))).map
        (recordAll (LatencyTracker.new requested) vs).samples).sum < 2 ^ 64) :
    ((recordAll (LatencyTracker.new requested) vs).get_stats).sample_count
        = min vs.length (next_power_of_2 requested) ∧
    ((recordAll (LatencyTracker.new requested) vs).get_stats).sample_count
        ≤ next_power_of_2 requested ∧
    (vs.length = 0 →
      (recordAll (LatencyTracker.new requested) vs).get_stats = LatencyStats.zero) ∧
    (((recordAll (LatencyTracker.new requested) vs).get_stats).min
        ≤ ((recordAll (LatencyTracker.new requested) vs).get_stats).mean ∧
      ((recordAll (LatencyTracker.new requested) vs).get_stats).mean
        ≤ ((recordAll (LatencyTracker.new requested) vs).get_stats).max) := by
  have hw : (recordAll (LatencyTracker.new requested) vs).write_idx = vs.length := by
    have := recordAll_write_idx vs (LatencyTracker.new requested) (by
      simp only [LatencyTracker.new]
      omega)
    simpa [LatencyTracker.new] using this
  have hm : (recordAll (LatencyTracker.new requested) vs).max_samples
      = next_power_of_2 requested := by
    rw [recordAll_max_samples]
    rfl
  by_cases hz : min vs.length (next_power_of_2 requested) = 0
  · have hzero : (recordAll (LatencyTracker.new requested) vs).get_stats
        = LatencyStats.zero := by
      dsimp only [LatencyTracker.get_stats]
      rw [hw, hm, if_pos hz]
    rw [hzero]
    refine ⟨by rw [hz]; rfl, by simp [LatencyStats.zero], fun _ => rfl, le_rfl, le_rfl⟩
  · have hcount : ((recordAll (LatencyTracker.new requested) vs).get_stats).sample_count
        = min vs.length (next_power_of_2 requested) := by
      dsimp only [LatencyTracker.get_stats]
      rw [hw, hm, if_neg hz]
    have hbounds := get_stats_bounds (recordAll (LatencyTracker.new requested) vs)
      (by rw [hw, hm]; exact hz) (by rw [hw, hm]; exact hsum)
    refine ⟨hcount, ?_, ?_, hbounds⟩
    · rw [hcount]
      omega
    · intro h0
      exfalso
      rw [h0] at hz
      simp at hz

/-- C7 counterexample: two samples of `2^63` on a capacity-4 tracker make
the `uint64_t` sum wrap to 0, so the reported `mean` is 0 while the
reported `min` is `2^63`: `min ≤ mean` fails although `sample_count` is
correct. -/
theorem c7_counterexample_mean_overflow :
    ((recordAll (LatencyTracker.new 4) [2 ^ 63, 2 ^ 63]).get_stats).sample_count = 2 ∧
    ¬ (((recordAll (LatencyTracker.new 4) [2 ^ 63, 2 ^ 63]).get_stats).min
        ≤ ((recordAll (LatencyTracker.new 4) [2 ^ 63, 2 ^ 63]).get_stats).mean) := by
  constructor <;> decide

theorem c7_latency_ring_stats_witness :
    ([3, 5] : List Nat).length < 2 ^ 64 ∧
    ((List.range (min ([3, 5] : List Nat).length (next_power_of_2 4))).map
        (recordAll (LatencyTracker.new 4) [3, 5]).samples).sum < 2 ^ 64 ∧
    (((recordAll (LatencyTracker.new 4) [3, 5]).get_stats).sample_count
        = min ([3, 5] : List Nat).length (next_power_of_2 4) ∧
      ((recordAll (LatencyTracker.new 4) [3, 5]).get_stats).sample_count
        ≤ next_power_of_2 4 ∧
      (([3, 5] : List Nat).length = 0 →
        (recordAll (LatencyTracker.new 4) [3, 5]).get_stats = LatencyStats.zero) ∧
      (((recordAll (LatencyTracker.new 4) [3, 5]).get_stats).min
          ≤ ((recordAll (LatencyTracker.new 4) [3, 5]).get_stats).mean ∧
        ((recordAll (LatencyTracker.new 4) [3, 5]).get_stats).mean
          ≤ ((recordAll (LatencyTracker.new 4) [3, 5]).get_stats).max)) :=
  ⟨by decide, by decide, c7_latency_ring_stats 4 [3, 5] (by decide) (by decide)⟩

/-! ## Tick generator price evolution (`src/server/tick_generator.cpp`) -/

/-- `TickGenerator::generate_next_price` (tick_generator.cpp:14-31) over
exact rationals: `std::sqrt(dt)` is passed in as `sqrtDt` (constrained in
the theorems by `sqrtDt * sqrtDt = dt`, `0 ≤ sqrtDt`), `normal` is the
Box–Muller draw.  The source clamps to `0.1` only when the new price is
strictly negative. -/
def generate_next_price (current_price drift volatility dt sqrtDt normal : ℚ) : ℚ :=
  let drift_component := drift * current_price * dt
  let diffusion_component := volatility * current_price * sqrtDt * normal
  let new_price := current_price + drift_component + diffusion_component
  if new_price < 0 then 1 / 10 else new_price

/-- C8 counterexample: with `S = 0.05` and zero drift/volatility the code
returns `0.05`, not `max(0.1, S + dS) = 0.1`; in particular the returned
price is below `0.1`, refuting the claim as stated. -/
theorem c8_counterexample_price_below_floor :
    generate_next_price (1 / 20) 0 0 1 1 0 = 1 / 20 ∧
    generate_next_price (1 / 20) 0 0 1 1 0 < 1 / 10 ∧
    generate_next_price (1 / 20) 0 0 1 1 0
      ≠ max (1 / 10) ((1 / 20 : ℚ) + (0 * (1 / 20) * 1 + 0 * (1 / 20) * 1 * 0)) := by
  refine ⟨?_, by norm_num [generate_next_price], by norm_num [generate_next_price]⟩
  norm_num [generate_next_price]

/-- C8 (amended): `generate_next_price` returns `S + dS` (with
`dS = drift·S·dt + volatility·S·√dt·Z`) whenever that is nonnegative, and
`0.1` only when `S + dS < 0`; in particular the result is always
nonnegative, but can lie strictly below `0.1`. -/
theorem c8_price_clamp (S drift vol dt sqrtDt Z : ℚ)
    (hsq : sqrtDt * sqrtDt = dt) (hnn : 0 ≤ sqrtDt) :
    0 ≤ generate_next_price S drift vol dt sqrtDt Z ∧
    (S + drift * S * dt + vol * S * sqrtDt * Z < 0 →
      generate_next_price S drift vol dt sqrtDt Z = 1 / 10) ∧
    (0 ≤ S + drift * S * dt + vol * S * sqrtDt * Z →
      generate_next_price S drift vol dt sqrtDt Z
        = S + drift * S * dt + vol * S * sqrtDt * Z) := by
  dsimp only [generate_next_price]
  by_cases h : S + drift * S * dt + vol * S * sqrtDt * Z < 0
  · rw [if_pos h]
    refine ⟨by norm_num, fun _ => rfl, fun hge => absurd h (not_lt.mpr hge)⟩
  · rw [if_neg h]
    exact ⟨le_of_not_lt h, fun hlt => absurd hlt h, fun _ => rfl⟩

theorem c8_price_clamp_witness :
    ((2 : ℚ) * 2 = 4 ∧ (0 : ℚ) ≤ 2) ∧
    (0 ≤ generate_next_price 1 1 1 4 2 1 ∧
      ((1 : ℚ) + 1 * 1 * 4 + 1 * 1 * 2 * 1 < 0 →
        generate_next_price 1 1 1 4 2 1 = 1 / 10) ∧
      (0 ≤ (1 : ℚ) + 1 * 1 * 4 + 1 * 1 * 2 * 1 →
        generate_next_price 1 1 1 4 2 1 = 1 + 1 * 1 * 4 + 1 * 1 * 2 * 1)) :=
  ⟨⟨by norm_num, by norm_num⟩,
    c8_price_clamp 1 1 1 4 2 1 (by norm_num) (by norm_num)⟩

/-! ## Tick sequence stamping (`src/server/exchange_simulator.cpp:291-331`) -/

/-- The `seq_num` evolution of one `generate_tick` call for the message it
stamps: when the sequence-gap fault fires, `symbol.seq_num += 2`
(exchange_simulator.cpp:297), then the stamp is the pre-incremented
`++symbol.seq_num` (lines 304/321).  `seq_num` is a `uint32_t`. -/
def next_stamped_seq (seq_num : Nat) (gap_fires : Bool) : Nat :=
  let s1 := if gap_fires then (seq_num + 2) % 2 ^ 32 else seq_num
  (s1 + 1) % 2 ^ 32

/-- C9: when the fault fires, the stamped sequence number is the previous
stamped value plus three — two sequence numbers are skipped, not one.  The
claim (and the comment at exchange_simulator.cpp:297) say plus two / one
skipped; the concrete evaluation at `seq_num = 5` stamps 8, not 7. -/
theorem c9_gap_skips_two (prev : Nat) (hprev : prev + 3 < 2 ^ 32) :
    next_stamped_seq prev true = prev + 3 ∧
    next_stamped_seq prev false = prev + 1 ∧
    next_stamped_seq 5 true = 8 ∧ next_stamped_seq 5 true ≠ 7 := by
  refine ⟨?_, ?_, by decide, by decide⟩
  · dsimp only [next_stamped_seq]
    rw [if_pos rfl, Nat.mod_eq_of_lt (by omega), Nat.mod_eq_of_lt (by omega)]
  · dsimp only [next_stamped_seq]
    rw [if_neg (by simp), Nat.mod_eq_of_lt (by omega)]

theorem c9_gap_skips_two_witness :
    5 + 3 < 2 ^ 32 ∧
    (next_stamped_seq 5 true = 5 + 3 ∧ next_stamped_seq 5 false = 5 + 1 ∧
      next_stamped_seq 5 true = 8 ∧ next_stamped_seq 5 true ≠ 7) :=
  ⟨by decide, c9_gap_skips_two 5 (by decide)⟩

/-! ## C10: record/reset never touch the histogram -/

/-- The operations the claim ranges over. -/
inductive TrackerOp : Type
  | record (v : Nat)
  | reset

def applyOp (st : LatencyTracker) : TrackerOp → LatencyTracker
  | .record v => st.record v
  | .reset => st.reset

def applyOps (st : LatencyTracker) (ops : List TrackerOp) : LatencyTracker :=
  ops.foldl applyOp st

theorem applyOps_histogram (ops : List TrackerOp) :
    ∀ st : LatencyTracker, (∀ i, st.histogram i = 0) →
      ∀ i, (applyOps st ops).histogram i = 0 := by
  induction ops with
  | nil => intro st h i; exact h i
  | cons op rest ih =>
    intro st h i
    apply ih (applyOp st op)
    intro j
    cases op with
    | record v => exact h j
    | reset => rfl

/-- C10: `record` writes only the cursor and the addressed slot and
`reset` stores zeros, so after any sequence of `record`/`reset` calls all
1000 histogram buckets are still zero; `export_to_csv` therefore writes
only the `"Bucket,Count"` header (no data rows) and returns `true`
whenever the output file opens (`false` without writing otherwise). -/
theorem c10_histogram_stays_zero (requested : Nat) (ops : List TrackerOp) :
    (∀ i, (applyOps (LatencyTracker.new requested) ops).histogram i = 0) ∧
    (applyOps (LatencyTracker.new requested) ops).export_to_csv true = (true, []) ∧
    (applyOps (LatencyTracker.new requested) ops).export_to_csv false = (false, []) := by
  have hz : ∀ i, (applyOps (LatencyTracker.new requested) ops).histogram i = 0 :=
    applyOps_histogram ops _ (fun _ => rfl)
  refine ⟨hz, ?_, rfl⟩
  dsimp only [LatencyTracker.export_to_csv]
  rw [if_neg (by simp)]
  have hfilter : ((List.range NUM_BUCKETS).filter
      (fun i => 0 < (applyOps (LatencyTracker.new requested) ops).histogram i)) = [] := by
    apply List.filter_eq_nil.mpr
    intro i _
    simp [hz i]
  rw [hfilter]
  rfl
